import Mathlib

set_option maxRecDepth 8000

/-!
Verification of the event-to-metric extraction pipeline of
`k8s-image-pull-metrics` (`main.go`).

The development shallowly embeds the pipeline of `handleAddFunc` together
with the Go standard-library routines it calls on its inputs:

* the `fmt.Sscanf` scan of the event message against the fixed format
  string `Successfully pulled image %q in %s (%s including waiting). Image
  size: %s bytes.` (function `scanMessage` below, built from the semantics
  of `fmt`: literal runs must match rune by rune, a space in the format
  consumes one or more spaces of input, `%s` skips spaces and captures a
  maximal non-space run, `%q` captures a Go-quoted string);
* `time.ParseDuration` (function `goParseDuration`);
* `strconv.ParseInt(s, 10, 64)` (function `goParseInt64`);
* the pod-name regular expression `^(.*)-.*-.*$` of Go package `regexp`
  (function `matchGreedy`), where `.` matches any character except
  newline and submatches are leftmost-first (greedy);
* the attribute construction and the three metric-instrument record calls.

Machine integers are modelled as `Nat`/`Int` with explicit bounds and
wrap-around (`% 2 ^ 64`) exactly where the Go code can overflow.
-/

/-- Space characters of Go package `fmt` (its internal `isSpace` table):
horizontal tab through carriage return, space, next line, no-break space,
ogham space mark, the U+2000 range, line/paragraph separator, narrow
no-break space, medium mathematical space and ideographic space. -/
def goIsSpace (c : Char) : Bool :=
  let n := c.toNat
  (0x9 ≤ n && n ≤ 0xd) || n == 0x20 || n == 0x85 || n == 0xa0 ||
  n == 0x1680 || (0x2000 ≤ n && n ≤ 0x200a) || n == 0x2028 || n == 0x2029 ||
  n == 0x202f || n == 0x205f || n == 0x3000

/-- Literal (non-space) format text must match the input rune by rune
(`fmt` function `advance`; a mismatch or end of input is a scan error). -/
def litm : List Char → List Char → Option (List Char)
  | [], l => some l
  | _ :: _, [] => none
  | c :: cs, x :: xs => if c == x then litm cs xs else none

/-- After a format space matched at least one input space, consume the
remaining run of spaces.  A newline in the input is an error because the
format holds none (`advance` of package `fmt`); end of input is left to
the following matcher, which fails on empty input. -/
def fspaceRest : List Char → Option (List Char)
  | [] => some []
  | c :: l =>
    if c == '\n' then none
    else if goIsSpace c then fspaceRest l
    else some (c :: l)

/-- A space in the format string requires at least one space in the input
and consumes the whole run (`advance` of package `fmt`). -/
def fspace : List Char → Option (List Char)
  | [] => none
  | c :: l => if goIsSpace c && c != '\n' then fspaceRest l else none

/-- Space skipping performed by the scan verbs themselves (`ss.SkipSpace`
with `nlIsSpace = false`, followed by `notEOF`): a newline or end of
input is a scan error. -/
def skipSpaceTok : List Char → Option (List Char)
  | [] => none
  | c :: l =>
    if c == '\n' then none
    else if goIsSpace c then skipSpaceTok l
    else some (c :: l)

/-- Maximal non-space run at the front of the input and the rest
(`ss.token` with the `notSpace` predicate). -/
def tokenRun : List Char → List Char × List Char
  | [] => ([], [])
  | c :: l =>
    if goIsSpace c then ([], c :: l)
    else
      let p := tokenRun l
      (c :: p.1, p.2)

/-- The verb `%s`: skip spaces, then capture a maximal non-empty run of
non-space characters. -/
def scanS (l : List Char) : Option (List Char × List Char) :=
  match skipSpaceTok l with
  | none => none
  | some r =>
    let p := tokenRun r
    if p.1.isEmpty then none else some p

/-- Raw body of a double-quoted string: runes up to the closing quote,
where a backslash protects the immediately following rune
(`ss.quotedString` of package `fmt`); reaching end of input is an error.
The first argument is fuel, one unit per input character plus one,
enough because every step consumes at least one character. -/
def readQuotedBody : Nat → List Char → Option (List Char × List Char)
  | 0, _ => none
  | _ + 1, [] => none
  | fuel + 1, c :: rest =>
    if c == '\\' then
      match rest with
      | [] => none
      | c2 :: rest2 => (readQuotedBody fuel rest2).map (fun p => (c :: c2 :: p.1, p.2))
    else if c == '"' then some ([], rest)
    else (readQuotedBody fuel rest).map (fun p => (c :: p.1, p.2))

def hexVal (c : Char) : Option Nat :=
  if 48 ≤ c.toNat && c.toNat ≤ 57 then some (c.toNat - 48)
  else if 97 ≤ c.toNat && c.toNat ≤ 102 then some (c.toNat - 87)
  else if 65 ≤ c.toNat && c.toNat ≤ 70 then some (c.toNat - 55)
  else none

/-- Octal digit (code points of `0` through `7`). -/
def isOct (c : Char) : Bool := 48 ≤ c.toNat && c.toNat ≤ 55

/-- Read exactly `n` hexadecimal digits, accumulating their value. -/
def hexN : Nat → List Char → Nat → Option (Nat × List Char)
  | 0, r, acc => some (acc, r)
  | _ + 1, [], _ => none
  | n + 1, c :: r, acc =>
    match hexVal c with
    | none => none
    | some v => hexN n r (acc * 16 + v)

/-- One escape sequence after a backslash inside a double-quoted string
(`strconv.unquoteChar` with quote `"`). Go produces raw bytes for
`\xHH` and octal escapes; here they are modelled as the code point of
that byte value, which agrees with Go wherever the result is valid text. -/
def escDec : List Char → Option (Char × List Char)
  | [] => none
  | c :: r =>
    if c == 'a' then some (Char.ofNat 0x07, r)
    else if c == 'b' then some (Char.ofNat 0x08, r)
    else if c == 'f' then some (Char.ofNat 0x0c, r)
    else if c == 'n' then some ('\n', r)
    else if c == 'r' then some ('\r', r)
    else if c == 't' then some ('\t', r)
    else if c == 'v' then some (Char.ofNat 0x0b, r)
    else if c == '\\' then some ('\\', r)
    else if c == '"' then some ('"', r)
    else if c == 'x' then
      match hexN 2 r 0 with
      | none => none
      | some (v, r2) => some (Char.ofNat v, r2)
    else if c == 'u' then
      match hexN 4 r 0 with
      | none => none
      | some (v, r2) =>
        if 0xd800 ≤ v && v ≤ 0xdfff then none else some (Char.ofNat v, r2)
    else if c == 'U' then
      match hexN 8 r 0 with
      | none => none
      | some (v, r2) =>
        if (0xd800 ≤ v && v ≤ 0xdfff) || v > 0x10ffff then none
        else some (Char.ofNat v, r2)
    else if isOct c then
      match r with
      | o2 :: o3 :: r2 =>
        if isOct o2 && isOct o3 then
          let v := (c.toNat - 48) * 64 + (o2.toNat - 48) * 8 + (o3.toNat - 48)
          if v > 255 then none else some (Char.ofNat v, r2)
        else none
      | _ => none
    else none

/-- Unquoting of the captured body (`strconv.Unquote` on the double-quoted
string): a literal newline or stray quote is invalid; backslashes start
escape sequences.  The first argument is fuel, one unit per input
character plus one, enough because every step consumes at least one
character. -/
def unquoteBody : Nat → List Char → Option (List Char)
  | 0, _ => none
  | _, [] => some []
  | fuel + 1, c :: r =>
    if c == '\n' || c == '"' then none
    else if c == '\\' then
      match escDec r with
      | none => none
      | some (ch, r2) => (unquoteBody fuel r2).map (fun l => ch :: l)
    else (unquoteBody fuel r).map (fun l => c :: l)

/-- Body of a back-quoted string: anything up to the closing backquote,
end of input is an error (`ss.quotedString` of package `fmt`). -/
def bqBody : List Char → Option (List Char × List Char)
  | [] => none
  | c :: r =>
    if c == Char.ofNat 0x60 then some ([], r)
    else (bqBody r).map (fun p => (c :: p.1, p.2))

/-- The verb `%q`: skip spaces, then scan a double-quoted string (with Go
unquoting) or a back-quoted raw string. -/
def scanQ (l : List Char) : Option (List Char × List Char) :=
  match skipSpaceTok l with
  | none => none
  | some ('"' :: r) =>
    match readQuotedBody (r.length + 1) r with
    | none => none
    | some (body, rest) =>
      match unquoteBody (body.length + 1) body with
      | none => none
      | some u => some (u, rest)
  | some (c :: r) => if c == Char.ofNat 0x60 then bqBody r else none
  | some [] => none

/-! Named literal chunks of the format and of grammar messages, kept as
definitions so that rewriting can treat them as units. -/

def cPre : List Char := "Successfully pulled image \"".data
def cQIn : List Char := "\" in ".data
def cIn : List Char := " in ".data
def cParenSp : List Char := " (".data
def cParenLit : List Char := "(".data
def cWaitSp : List Char := " including waiting). Image size: ".data
def cWait : List Char := "including waiting). Image size: ".data
def cBytesSp : List Char := " bytes.".data
def cBytes : List Char := "bytes.".data

/-- The leading format segment `Successfully pulled image ` including
the space before the verb `%q`. -/
def scanPre (m : List Char) : Option (List Char) :=
  match litm "Successfully".data m with
  | none => none
  | some l1 =>
    match fspace l1 with
    | none => none
    | some l2 =>
      match litm "pulled".data l2 with
      | none => none
      | some l3 =>
        match fspace l3 with
        | none => none
        | some l4 =>
          match litm "image".data l4 with
          | none => none
          | some l5 => fspace l5

/-- The format segment ` in ` between the verbs `%q` and `%s`. -/
def scanMid (l : List Char) : Option (List Char) :=
  match fspace l with
  | none => none
  | some l1 =>
    match litm "in".data l1 with
    | none => none
    | some l2 => fspace l2

/-- The format segment ` including waiting). Image size: ` between the
second and third `%s`. -/
def scanWait (l : List Char) : Option (List Char) :=
  match fspace l with
  | none => none
  | some l1 =>
    match litm "including".data l1 with
    | none => none
    | some l2 =>
      match fspace l2 with
      | none => none
      | some l3 =>
        match litm "waiting).".data l3 with
        | none => none
        | some l4 =>
          match fspace l4 with
          | none => none
          | some l5 =>
            match litm "Image".data l5 with
            | none => none
            | some l6 =>
              match fspace l6 with
              | none => none
              | some l7 =>
                match litm "size:".data l7 with
                | none => none
                | some l8 => fspace l8

/-- The final format segment ` bytes.`. -/
def scanEnd (l : List Char) : Option (List Char) :=
  match fspace l with
  | none => none
  | some l1 => litm "bytes.".data l1

/-- The `fmt.Sscanf` scan of `handleAddFunc` (main.go line 168) against
`Successfully pulled image %q in %s (%s including waiting). Image size:
%s bytes.`, decomposed into its literal words, format spaces and verbs in
order.  Input remaining after the final literal `bytes.` is ignored, as
`Sscanf` never requires the input to be exhausted.  Returns the four
captures (image name, pull duration string, wait duration string, image
size string). -/
def scanMessage (m : List Char) : Option (List Char × List Char × List Char × List Char) :=
  match scanPre m with
  | none => none
  | some l6 =>
    match scanQ l6 with
    | none => none
    | some (ref, r1) =>
      match scanMid r1 with
      | none => none
      | some l8 =>
        match scanS l8 with
        | none => none
        | some (d1, r2) =>
          match fspace r2 with
          | none => none
          | some l9 =>
            match litm cParenLit l9 with
            | none => none
            | some l10 =>
              match scanS l10 with
              | none => none
              | some (d2, r3) =>
                match scanWait r3 with
                | none => none
                | some l19 =>
                  match scanS l19 with
                  | none => none
                  | some (sz, r4) =>
                    match scanEnd r4 with
                    | none => none
                    | some _ => some (ref, d1, d2, sz)

/-! Embedding of `time.ParseDuration` (Go 1.23, `time/format.go`). -/

/-- Decimal digit (code points of `0` through `9`). -/
def isDig (c : Char) : Bool := 48 ≤ c.toNat && c.toNat ≤ 57

def digVal (c : Char) : Nat := c.toNat - 48

/-- `leadingInt`: consume leading decimal digits into a `uint64`,
failing on overflow past `2 ^ 63`. -/
def leadingInt : List Char → Nat → Option (Nat × List Char)
  | [], x => some (x, [])
  | c :: l, x =>
    if isDig c then
      if x > 922337203685477580 then none
      else
        let y := x * 10 + digVal c
        if y > 9223372036854775808 then none else leadingInt l y
    else some (x, c :: l)

/-- `leadingFraction`: consume leading decimal digits as a fraction
numerator with its power-of-ten scale; once the numerator would
overflow, further digits are consumed but ignored.  Go keeps `scale` in
a `float64`, which is exact here because it never exceeds `10 ^ 20`. -/
def leadingFraction : List Char → Nat → Nat → Bool → Nat × Nat × List Char
  | [], x, scale, _ => (x, scale, [])
  | c :: l, x, scale, ov =>
    if isDig c then
      if ov then leadingFraction l x scale true
      else if x > 922337203685477580 then leadingFraction l x scale true
      else
        let y := x * 10 + digVal c
        if y > 9223372036854775808 then leadingFraction l x scale true
        else leadingFraction l y (scale * 10) false
    else (x, scale, c :: l)

/-- Nanoseconds per unit (`unitMap` of package `time`); the micro sign
and the Greek mu are both accepted for microseconds. -/
def unitNs (u : List Char) : Option Nat :=
  if u = ['n', 's'] then some 1
  else if u = ['u', 's'] then some 1000
  else if u = [Char.ofNat 0xb5, 's'] then some 1000
  else if u = [Char.ofNat 0x3bc, 's'] then some 1000
  else if u = ['m', 's'] then some 1000000
  else if u = ['s'] then some 1000000000
  else if u = ['m'] then some 60000000000
  else if u = ['h'] then some 3600000000000
  else none

/-- Floor of the base-2 logarithm, with fuel for structural recursion;
`log2f fuel n` is exact whenever `n < 2 ^ fuel`. -/
def log2f : Nat → Nat → Nat
  | 0, _ => 0
  | fuel + 1, n => if 2 ≤ n then log2f fuel (n / 2) + 1 else 0

/-- Round the positive rational `p / q` to the nearest IEEE-754
`float64` (round to nearest, ties to even, 53 significant bits),
returned as an exact `num / den` pair with `den` a power of two.  The
exponent is recovered through a `2 ^ 200` scaling, exact for every
value above `2 ^ -200`; no overflow or subnormal arises in the range
`ParseDuration` computes in, so the binade and mantissa rounding below
are the whole semantics. -/
def rndQ (p q : Nat) : Nat × Nat :=
  if p = 0 then (0, 1)
  else
    let e : Int := (log2f 600 (p * 2 ^ 200 / q) : Int) - 200
    if 52 ≤ e then
      let U := 2 ^ (e - 52).toNat
      let m0 := p / (q * U)
      let r := p % (q * U)
      let m := if 2 * r < q * U then m0
        else if q * U < 2 * r then m0 + 1
        else if m0 % 2 = 0 then m0 else m0 + 1
      (m * U, 1)
    else
      let s := (52 - e).toNat
      let m0 := p * 2 ^ s / q
      let r := p * 2 ^ s % q
      let m := if 2 * r < q then m0
        else if q < 2 * r then m0 + 1
        else if m0 % 2 = 0 then m0 else m0 + 1
      (m, 2 ^ s)

/-- `float64(n)` for a natural number. -/
def fOfNatQ (n : Nat) : Nat × Nat := rndQ n 1

/-- Correctly rounded `float64` product. -/
def fMulQ (a b : Nat × Nat) : Nat × Nat := rndQ (a.1 * b.1) (a.2 * b.2)

/-- Correctly rounded `float64` quotient. -/
def fDivQ (a b : Nat × Nat) : Nat × Nat := rndQ (a.1 * b.2) (a.2 * b.1)

/-- `uint64(x)` for a non-negative `float64`: truncation toward zero. -/
def fTrunc (a : Nat × Nat) : Nat := a.1 / a.2

/-- The fractional contribution of one duration component, exactly as
`ParseDuration` computes it: `uint64(float64(f) * (float64(unit) /
scale))`.  The scale accumulated by `leadingFraction` is `10 ^ k` for
`k ≤ 19`, exactly representable in `float64`, so `float64(scale)` here
is the very value Go holds. -/
def fracF (f unit scale : Nat) : Nat :=
  fTrunc (fMulQ (fOfNatQ f) (fDivQ (fOfNatQ unit) (fOfNatQ scale)))

/-- Whether the input starts with a period or a decimal digit (the
check `s[0] == '.' || '0' <= s[0] && s[0] <= '9'` of `ParseDuration`). -/
def headDotOrDig : List Char → Bool
  | [] => false
  | c :: _ => c == '.' || isDig c

/-- The optional fraction `(\.[0-9]*)?` of one component: numerator,
scale, rest, and whether any fraction digit was consumed. -/
def fracSplit (s1 : List Char) : Nat × Nat × List Char × Bool :=
  match s1 with
  | '.' :: t =>
    let r := leadingFraction t 0 1 false
    (r.1, r.2.1, r.2.2, decide (t.length ≠ r.2.2.length))
  | _ => (0, 1, s1, false)

/-- One iteration of the `ParseDuration` component loop: an integer part,
an optional fraction, a unit, with the overflow checks of the original
(`v > 2^63/unit` before scaling, and the scaled value capped at `2^63`),
and the fractional contribution computed through `float64` rounding as
the original does (`fracF`). -/
def parseComp (s : List Char) : Option (Nat × List Char) :=
  if s.isEmpty then none
  else if !headDotOrDig s then none
  else
    match leadingInt s 0 with
    | none => none
    | some (v, s1) =>
      let pre := decide (s1.length ≠ s.length)
      match fracSplit s1 with
      | (f, scale, s2, post) =>
        if !pre && !post then none
        else
          let u := s2.takeWhile (fun c => !(c == '.' || isDig c))
          let s3 := s2.drop u.length
          if u.isEmpty then none
          else
            match unitNs u with
            | none => none
            | some unit =>
              if v > 9223372036854775808 / unit then none
              else
                let v2 := v * unit
                if f > 0 then
                  let v3 := v2 + fracF f unit scale
                  if v3 > 9223372036854775808 then none else some (v3, s3)
                else some (v2, s3)

/-- The component loop of `ParseDuration`, accumulating into a `uint64`
with wrap-around and failing once the total exceeds `2 ^ 63`.  Fuel is
one unit per character plus one; every component consumes at least its
unit character. -/
def durLoop : Nat → List Char → Nat → Option Nat
  | 0, _, _ => none
  | _, [], d => some d
  | fuel + 1, c :: s, d =>
    match parseComp (c :: s) with
    | none => none
    | some (v, rest) =>
      let d2 := (d + v) % 18446744073709551616
      if d2 > 9223372036854775808 then none else durLoop fuel rest d2

/-- Optional leading sign of a duration: `-` negates, `+` is consumed. -/
def signSplit (s : List Char) : Bool × List Char :=
  match s with
  | [] => (false, [])
  | c :: t =>
    if c == '-' then (true, t)
    else if c == '+' then (false, t)
    else (false, c :: t)

/-- `time.ParseDuration`: optional sign, the special case `0`, then one
or more `[0-9]*(\.[0-9]*)?unit` components.  The result is the signed
nanosecond count (`-2 ^ 63 ≤ result < 2 ^ 63`). -/
def goParseDuration (s : List Char) : Option Int :=
  match signSplit s with
  | (neg, s1) =>
    if s1 = ['0'] then some 0
    else if s1.isEmpty then none
    else
      match durLoop (s1.length + 1) s1 0 with
      | none => none
      | some d =>
        if neg then some (-(d : Int))
        else if d > 9223372036854775807 then none
        else some (d : Int)

/-- Decimal value of a digit string. -/
def digitsVal (l : List Char) : Nat := l.foldl (fun a c => a * 10 + digVal c) 0

/-- `strconv.ParseInt(s, 10, 64)` reduced to its observable behaviour:
an optional sign followed by a non-empty run of decimal digits (base 10
admits no underscores), with the signed 64-bit range check; any syntax
or range error makes the caller drop the event, so both collapse to
`none`. -/
def goParseInt64 (s : List Char) : Option Int :=
  match s with
  | [] => none
  | c :: t =>
    let p : Bool × List Char :=
      if c == '+' then (false, t)
      else if c == '-' then (true, t)
      else (false, c :: t)
    match p with
    | (neg, ds) =>
      if ds.isEmpty then none
      else if !ds.all isDig then none
      else
        let v := digitsVal ds
        if neg then
          if v > 9223372036854775808 then none else some (-(v : Int))
        else
          if v ≥ 9223372036854775808 then none else some (v : Int)

/-! Embedding of the pod-name regular expression `^(.*)-.*-.*$`
(main.go line 200) with Go `regexp` semantics: `.` matches any rune
except newline, `^`/`$` anchor at the ends of the text, and the capture
is leftmost-first, so the leading `.*` is greedy. -/

/-- The regexp metacharacter `.`: any character except newline. -/
def dotChar (c : Char) : Bool := c != '\n'

def allDot (l : List Char) : Bool := l.all dotChar

/-- Matcher for the suffix pattern `.*-.*$`. -/
def matchTail2 : List Char → Bool
  | [] => false
  | c :: rest => (c == '-' && allDot rest) || (dotChar c && matchTail2 rest)

/-- Backtracking matcher for `^(.*)-.*-.*$` returning the first capture:
the leading `.*` extends as far as possible first (greedy), falling back
to treating the current character as the first separator dash. -/
def matchGreedy : List Char → Option (List Char)
  | [] => none
  | c :: rest =>
    match (if dotChar c then matchGreedy rest else none) with
    | some p => some (c :: p)
    | none => if c == '-' && matchTail2 rest then some [] else none

/-- Pod-name tag derivation (main.go lines 199 to 204): the value of the
`exported.pod.prefix` attribute when `FindStringSubmatch` matches. -/
def podStemTag (s : String) : Option String :=
  (matchGreedy s.data).map (fun l => String.mk l)

/-! The event record, the metric instruments and the handler. -/

/-- The fields of a `v1.Event` that `handleAddFunc` reads.  The last
observed time is carried directly as its epoch-millisecond value, which
is all the handler extracts from it (`event.LastTimestamp.UnixMilli()`). -/
structure Event where
  sourceComponent : String
  sourceHost : String
  involvedObjectKind : String
  involvedObjectName : String
  reason : String
  message : String
  eventNamespace : String
  lastTimestampUnixMilli : Int
  deriving DecidableEq, Repr

/-- Attribute values are strings or 64-bit integers
(`attribute.String` / `attribute.Int64`). -/
inductive AttrVal where
  | s (v : String)
  | i (v : Int)
  deriving DecidableEq, Repr

/-- A metric instrument as configured in `main` (name, description, unit,
explicit bucket boundaries; the boundary literals are integral, so the
`[]float64` is carried as a `List Nat`). -/
structure InstrumentDef where
  name : String
  description : String
  unit : String
  bucketBoundariesMs : List Nat
  deriving DecidableEq, Repr

/-- Histogram `k8s.image.pull.duration` (main.go lines 105 to 110). -/
def durationPullHistogram : InstrumentDef :=
  { name := "k8s.image.pull.duration"
    description := "The duration of image pull."
    unit := "ms"
    bucketBoundariesMs := [15000, 30000, 45000, 60000, 120000, 180000, 240000, 300000] }

/-- Histogram `k8s.image.pull_wait_only.duration` (main.go lines 111 to 116). -/
def durationPullWaitOnlyHistogram : InstrumentDef :=
  { name := "k8s.image.pull_wait_only.duration"
    description := "The duration of image pull including waiting time."
    unit := "ms"
    bucketBoundariesMs := [15000, 30000, 45000, 60000, 120000, 180000, 240000, 300000] }

/-- Gauge `k8s.image.size` (main.go lines 117 to 121). -/
def imageSizeGauge : InstrumentDef :=
  { name := "k8s.image.size"
    description := "The size of the image in bytes."
    unit := "bytes"
    bucketBoundariesMs := [] }

/-- One `Record` call on a metric instrument. -/
structure MetricCall where
  instrument : InstrumentDef
  value : Int
  attrs : List (String × AttrVal)
  deriving DecidableEq, Repr

/-- The guard of main.go line 158: skip when the message is at least 15
bytes long and begins with `Container image` (the literal is ASCII, so
byte indexing and character indexing agree). -/
def containerImageSkip (m : String) : Bool :=
  m.length ≥ 15 && m.take 15 == "Container image"

/-- The event filter of `handleAddFunc` (main.go lines 152 to 161):
`true` exactly when processing continues past both early returns. -/
def acceptEvent (e : Event) : Bool :=
  !(e.sourceComponent != "kubelet" || e.involvedObjectKind != "Pod" || e.reason != "Pulled")
    && !containerImageSkip e.message

/-- Result of successfully parsing one event message: the four typed
fields extracted by `handleAddFunc` (durations in int64 nanoseconds, as
`time.Duration` stores them). -/
structure ParsedPullRecord where
  imageRef : String
  pullNs : Int
  totalNs : Int
  imageSizeBytes : Int
  deriving DecidableEq, Repr

/-- The scan plus the three field conversions of `handleAddFunc`
(main.go lines 168 to 184): all four fields succeed or the whole parse
fails with no partial record. -/
def parseMessage (msg : String) : Option ParsedPullRecord :=
  match scanMessage msg.data with
  | none => none
  | some (ref, dp, dw, sz) =>
    match goParseDuration dp with
    | none => none
    | some durationPull =>
      match goParseDuration dw with
      | none => none
      | some durationWithWait =>
        match goParseInt64 sz with
        | none => none
        | some imageSizeInt =>
          some ⟨String.mk ref, durationPull, durationWithWait, imageSizeInt⟩

/-- The attribute set built for one parsed event (main.go lines 186 to
204): seven fixed attributes, plus `exported.pod.prefix` appended when
the pod-name pattern matches. -/
def buildAttrs (e : Event) (r : ParsedPullRecord) : List (String × AttrVal) :=
  let common : List (String × AttrVal) :=
    [("observed.timestamp", .i e.lastTimestampUnixMilli),
     ("exported.namespace", .s e.eventNamespace),
     ("exported.pod.name", .s e.involvedObjectName),
     ("exported.container.name", .s e.involvedObjectName),
     ("exported.pod.image", .s r.imageRef),
     ("exported.pod.image.size", .i r.imageSizeBytes),
     ("exported.host", .s e.sourceHost)]
  match podStemTag e.involvedObjectName with
  | some p => common ++ [("exported.pod.prefix", .s p)]
  | none => common

/-- Signed 64-bit wrap-around: Go `int64` arithmetic reduces modulo
`2 ^ 64` into `[-2 ^ 63, 2 ^ 63)`. -/
def wrap64 (z : Int) : Int :=
  (z + 9223372036854775808) % 18446744073709551616 - 9223372036854775808

/-- `time.Duration.Milliseconds()` is `int64(d) / 1e6`, Go division
truncating toward zero. -/
def msOf (ns : Int) : Int := Int.tdiv ns 1000000

/-- The metric record calls emitted for one parsed event (main.go lines
206 to 208): the size gauge, the pull-duration histogram in
milliseconds, and the wait-only histogram recording
`time.Duration(durationWithWait - durationPull).Milliseconds()`, the
difference taken in wrapping int64 arithmetic. -/
def recordCalls (e : Event) (r : ParsedPullRecord) : List MetricCall :=
  let attrs := buildAttrs e r
  [⟨imageSizeGauge, r.imageSizeBytes, attrs⟩,
   ⟨durationPullHistogram, msOf r.pullNs, attrs⟩,
   ⟨durationPullWaitOnlyHistogram, msOf (wrap64 (r.totalNs - r.pullNs)), attrs⟩]

/-- `handleAddFunc` (main.go lines 146 to 216) as the list of metric
record calls it performs for one incoming event: empty when the event is
filtered out or its message fails to parse. -/
def handleAddFunc (e : Event) : List MetricCall :=
  if acceptEvent e then
    match parseMessage e.message with
    | none => []
    | some r => recordCalls e r
  else []

/-! Spec-side definitions, written from the words of the specification
(sections 4.2 and 4.4), to be compared with the embedded code. -/

/-- A message of the section 4.2 grammar, assembled from its literal
parts: the captured image reference, the two captured duration tokens,
the captured integer, and whatever follows the terminal literal. -/
def msgParts (ref d1 d2 n rest : List Char) : List Char :=
  cPre ++ (ref ++ (cQIn ++ (d1 ++ (cParenSp ++ (d2 ++ (cWaitSp ++ (n ++ (cBytesSp ++ rest))))))))

/-- One component of the compound duration grammar of section 4.2: an
integer part, an optional fractional part, and one of the four units
(hours, minutes, seconds, milliseconds), identified by its index in
most-significant-first order. -/
structure DurComp where
  ipart : List Char
  fpart : Option (List Char)
  uidx : Fin 4
  deriving DecidableEq, Repr

/-- Unit spellings in most-significant-first order: `h`, `m`, `s`, `ms`. -/
def uText (i : Fin 4) : List Char := [['h'], ['m'], ['s'], ['m', 's']].get i

/-- Nanoseconds per unit, in the same order. -/
def uNs (i : Fin 4) : Nat := [3600000000000, 60000000000, 1000000000, 1000000].get i

/-- The text of one duration component. -/
def compText (c : DurComp) : List Char :=
  c.ipart ++ (match c.fpart with | none => [] | some f => '.' :: f) ++ uText c.uidx

/-- The text of a duration token: its components concatenated with no
separator. -/
def durText (cs : List DurComp) : List Char :=
  cs.foldr (fun c acc => compText c ++ acc) []

/-- Well-formedness of one component: a non-empty integer part of
digits, and a non-empty fractional part of digits when present. -/
def compWf (c : DurComp) : Bool :=
  !c.ipart.isEmpty && c.ipart.all isDig &&
    (match c.fpart with | none => true | some f => !f.isEmpty && f.all isDig)

/-- Units strictly decreasing in significance along the token. -/
def strictUnits : List DurComp → Bool
  | [] => true
  | [_] => true
  | a :: b :: t => decide (a.uidx < b.uidx) && strictUnits (b :: t)

/-- A well-formed duration token of the section 4.2 grammar: at least
one component, each well formed, most-significant unit first. -/
def durWf (cs : List DurComp) : Bool :=
  !cs.isEmpty && cs.all compWf && strictUnits cs

/-- Nanosecond contribution of a fractional part under a unit: the
numerator and scale retained by `leadingFraction`, combined through the
same `float64` computation the code performs. -/
def fracNs (fp : Option (List Char)) (u : Nat) : Nat :=
  match fp with
  | none => 0
  | some f =>
    let r := leadingFraction f 0 1 false
    fracF r.1 u r.2.1

/-- Nanosecond value of one component: integer part scaled by the unit
plus the truncated fractional contribution. -/
def compNs (c : DurComp) : Nat :=
  digitsVal c.ipart * uNs c.uidx + fracNs c.fpart (uNs c.uidx)

/-- Nanosecond value of a duration token: the sum of its components. -/
def specDurNs (cs : List DurComp) : Nat := (cs.map compNs).sum

/-- Dash-separated segments of a character list (the reading of
"dash-separated segments" in sections 4.4 and 8 of the specification). -/
def splitD : List Char → List (List Char)
  | [] => [[]]
  | c :: rest =>
    if c = '-' then [] :: splitD rest
    else
      match splitD rest with
      | [] => [[c]]
      | s :: ss => (c :: s) :: ss

/-- Joining segments back with dashes (the inverse of `splitD`). -/
def joinD : List (List Char) → List Char
  | [] => []
  | [s] => s
  | s :: ss => s ++ '-' :: joinD ss

/-! General lemmas. -/

theorem char_eq_of_toNat {c d : Char} (h : c.toNat = d.toNat) : c = d := by
  unfold Char.toNat at h
  exact Char.ext (UInt32.ext h)

theorem char_beq_false {c d : Char} (h : c.toNat ≠ d.toNat) : (c == d) = false := by
  refine beq_eq_false_iff_ne.mpr ?_
  intro e
  exact h (by rw [e])

theorem isDig_toNat {c : Char} (h : isDig c = true) : 48 ≤ c.toNat ∧ c.toNat ≤ 57 := by
  simpa [isDig] using h

theorem notspace_of_isDig {c : Char} (h : isDig c = true) : goIsSpace c = false := by
  obtain ⟨h1, h2⟩ := isDig_toNat h
  simp [goIsSpace]
  omega

/-- C2: the event filter accepts exactly the events whose source
component is `kubelet`, whose involved object kind is `Pod`, whose
reason is `Pulled` and whose message does not begin with `Container
image`; a rejected event produces no metric record call at all. -/
theorem filter_accept_characterization (e : Event) :
    (acceptEvent e = true ↔
      (e.sourceComponent = "kubelet" ∧ e.involvedObjectKind = "Pod" ∧ e.reason = "Pulled" ∧
        ¬ (15 ≤ e.message.length ∧ e.message.take 15 = "Container image")))
    ∧ (acceptEvent e = false → handleAddFunc e = []) := by
  constructor
  · simp [acceptEvent, containerImageSkip, and_assoc, imp_iff_not_or, not_le]
  · intro h
    simp [handleAddFunc, h]

/-- The C2 filter characterization applied to a concrete rejected event. -/
theorem filter_accept_characterization_w :
    handleAddFunc ⟨"scheduler", "h1", "Pod", "p1", "Pulled", "m", "ns1", 0⟩ = [] :=
  (filter_accept_characterization _).2 (by decide)

/-- C4 (amended): whenever the message parse fails, the handler performs
no metric record call — all four fields succeed or the whole parse fails
with no partial record; and the parse does fail on the empty string, on
a truncated message, on a message with wrong quoting and on a
non-numeric size.  The converse direction of the original claim does
not hold: a message may mismatch the full anchored grammar only by text
after the terminal period and still parse (see the counterexample). -/
theorem parse_failure_drops_event :
    (∀ e : Event, parseMessage e.message = none → handleAddFunc e = [])
    ∧ parseMessage "" = none
    ∧ parseMessage "Successfully pulled image \"repo/example:99cd3b4\" in 1m44" = none
    ∧ parseMessage "Successfully pulled image 'repo/example:99cd3b4' in 15s (45s including waiting). Image size: 500 bytes." = none
    ∧ parseMessage "Successfully pulled image \"repo/example:99cd3b4\" in 15s (45s including waiting). Image size: fivehundred bytes." = none := by
  refine ⟨?_, by decide, by decide, by decide, by decide⟩
  intro e h
  cases ha : acceptEvent e <;> simp [handleAddFunc, ha, h]

/-- The C4 theorem applied to a concrete event whose message fails to
parse. -/
theorem parse_failure_drops_event_w :
    handleAddFunc ⟨"kubelet", "h1", "Pod", "p1", "Pulled", "not a pull message", "ns1", 0⟩ = [] :=
  parse_failure_drops_event.1 _ (by decide)

/-- An accepted event whose message carries extra text after the
terminal ` bytes.` literal, so it is not a full anchored match of the
section 4.2 grammar. -/
def evTrail : Event :=
  ⟨"kubelet", "h1", "Pod", "web-6c9f8d4b7d-q2x5z", "Pulled",
   "Successfully pulled image \"repo/example:99cd3b4\" in 15s (45s including waiting). Image size: 500 bytes. and some trailing text",
   "ns1", 0⟩

/-- Counterexample to C4 as stated: this message differs from the full
anchored grammar string of its captures (it continues past the terminal
period), yet the parse succeeds and the handler performs its three
record calls instead of dropping the event. -/
theorem parse_failure_drops_event_cex :
    evTrail.message ≠ "Successfully pulled image \"repo/example:99cd3b4\" in 15s (45s including waiting). Image size: 500 bytes."
    ∧ parseMessage evTrail.message =
        some ⟨"repo/example:99cd3b4", 15000000000, 45000000000, 500⟩
    ∧ (handleAddFunc evTrail).length = 3 := by
  decide

theorem durLoop_le : ∀ (fuel : Nat) (s : List Char) (d d' : Nat),
    d ≤ 9223372036854775808 → durLoop fuel s d = some d' → d' ≤ 9223372036854775808 := by
  intro fuel
  induction fuel with
  | zero => intro s d d' _ h; simp [durLoop] at h
  | succ n ih =>
    intro s d d' hd h
    cases s with
    | nil =>
      simp [durLoop] at h
      omega
    | cons c t =>
      rw [durLoop] at h
      cases hp : parseComp (c :: t) with
      | none => rw [hp] at h; simp at h
      | some p =>
        obtain ⟨v, rest⟩ := p
        rw [hp] at h
        simp only at h
        split at h
        · simp at h
        · rename_i h2
          exact ih rest _ d' (by omega) h

theorem goParseDuration_range {s : List Char} {v : Int} (h : goParseDuration s = some v) :
    -9223372036854775808 ≤ v ∧ v ≤ 9223372036854775807 := by
  unfold goParseDuration at h
  rcases hq : signSplit s with ⟨neg, s1⟩
  rw [hq] at h
  simp only at h
  split at h
  · cases h
    constructor <;> decide
  · split at h
    · simp at h
    · cases hd : durLoop (s1.length + 1) s1 0 with
      | none => rw [hd] at h; simp at h
      | some d =>
        rw [hd] at h
        have hdle : d ≤ 9223372036854775808 := durLoop_le _ _ 0 d (by omega) hd
        simp only at h
        cases neg with
        | true =>
          simp only [if_true] at h
          cases h
          constructor <;> [omega; omega]
        | false =>
          simp only [Bool.false_eq_true, if_false] at h
          split at h
          · simp at h
          · rename_i hlt
            cases h
            constructor <;> omega

theorem parseMessage_range {m : String} {r : ParsedPullRecord} (h : parseMessage m = some r) :
    (-9223372036854775808 ≤ r.pullNs ∧ r.pullNs ≤ 9223372036854775807) ∧
      (-9223372036854775808 ≤ r.totalNs ∧ r.totalNs ≤ 9223372036854775807) := by
  unfold parseMessage at h
  cases hs : scanMessage m.data with
  | none => rw [hs] at h; simp at h
  | some q =>
    obtain ⟨ref, dp, dw, sz⟩ := q
    rw [hs] at h
    simp only at h
    cases h1 : goParseDuration dp with
    | none => rw [h1] at h; simp at h
    | some vp =>
      rw [h1] at h
      cases h2 : goParseDuration dw with
      | none => rw [h2] at h; simp at h
      | some vw =>
        rw [h2] at h
        cases h3 : goParseInt64 sz with
        | none => rw [h3] at h; simp at h
        | some vi =>
          rw [h3] at h
          simp only [Option.some.injEq] at h
          subst h
          exact ⟨goParseDuration_range h1, goParseDuration_range h2⟩

/-! Concrete events used by witnesses and counterexamples. -/

def evA : Event :=
  ⟨"kubelet", "node1", "Pod", "web-6c9f8d4b7d-q2x5z", "Pulled",
    "Successfully pulled image \"repo/example:99cd3b4\" in 15s (45s including waiting). Image size: 500 bytes.",
    "default", 1700000000000⟩

def rA : ParsedPullRecord := ⟨"repo/example:99cd3b4", 15000000000, 45000000000, 500⟩

def evSub : Event :=
  ⟨"kubelet", "node1", "Pod", "p1", "Pulled",
    "Successfully pulled image \"r\" in 1.0000005s (1s including waiting). Image size: 5 bytes.",
    "default", 0⟩

def evWrap : Event :=
  ⟨"kubelet", "node1", "Pod", "p1", "Pulled",
    "Successfully pulled image \"r\" in -2562047h (2562047h including waiting). Image size: 5 bytes.",
    "default", 0⟩

def evNeg : Event :=
  ⟨"kubelet", "node1", "Pod", "p1", "Pulled",
    "Successfully pulled image \"repo\" in 15s (45s including waiting). Image size: -5 bytes.",
    "default", 0⟩

def evHalf : Event :=
  ⟨"kubelet", "node1", "Pod", "p1", "Pulled",
    "Successfully pulled image \"r\" in 0.5ms (1s including waiting). Image size: 5 bytes.",
    "default", 0⟩

def rHalf : ParsedPullRecord := ⟨"r", 500000, 1000000000, 5⟩

/-- C6: for an accepted, successfully parsed event, every metric record
call carries the same attribute set, whose keys are exactly the seven
fixed ones plus the optional pod-prefix tag, and whose container-name
value always equals its pod-name value. -/
theorem attrs_characterization (e : Event) (r : ParsedPullRecord)
    (hp : parseMessage e.message = some r) (ha : acceptEvent e = true) :
    (∀ call ∈ handleAddFunc e, call.attrs = buildAttrs e r)
    ∧ (buildAttrs e r).map Prod.fst =
        ["observed.timestamp", "exported.namespace", "exported.pod.name",
         "exported.container.name", "exported.pod.image", "exported.pod.image.size",
         "exported.host"] ++
        (match podStemTag e.involvedObjectName with
         | some _ => ["exported.pod.prefix"]
         | none => [])
    ∧ ("observed.timestamp", AttrVal.i e.lastTimestampUnixMilli) ∈ buildAttrs e r
    ∧ ("exported.pod.name", AttrVal.s e.involvedObjectName) ∈ buildAttrs e r
    ∧ ("exported.container.name", AttrVal.s e.involvedObjectName) ∈ buildAttrs e r := by
  refine ⟨?_, ?_, ?_, ?_, ?_⟩
  · intro call hc
    simp [handleAddFunc, ha, hp, recordCalls] at hc
    rcases hc with h | h | h <;> subst h <;> rfl
  · cases hps : podStemTag e.involvedObjectName <;> simp [buildAttrs, hps]
  · cases hps : podStemTag e.involvedObjectName <;> simp [buildAttrs, hps]
  · cases hps : podStemTag e.involvedObjectName <;> simp [buildAttrs, hps]
  · cases hps : podStemTag e.involvedObjectName <;> simp [buildAttrs, hps]

/-- The C6 theorem applied to a concrete accepted and parsed event. -/
theorem attrs_characterization_w :
    ("exported.container.name", AttrVal.s evA.involvedObjectName) ∈ buildAttrs evA rA :=
  (attrs_characterization evA rA (by decide) (by decide)).2.2.2.2

/-- C9: whenever an event is processed at all, exactly three record
calls are made, once per instrument, in order the size gauge, the
pull-duration histogram and the wait-only histogram, and the two
histograms carry the explicit bucket boundaries 15000 through 300000
milliseconds. -/
theorem instruments_recorded (e : Event) :
    handleAddFunc e = [] ∨
      ∃ r, parseMessage e.message = some r ∧
        handleAddFunc e =
          [⟨imageSizeGauge, r.imageSizeBytes, buildAttrs e r⟩,
           ⟨durationPullHistogram, msOf r.pullNs, buildAttrs e r⟩,
           ⟨durationPullWaitOnlyHistogram, msOf (wrap64 (r.totalNs - r.pullNs)), buildAttrs e r⟩]
        ∧ durationPullHistogram.bucketBoundariesMs =
            [15000, 30000, 45000, 60000, 120000, 180000, 240000, 300000]
        ∧ durationPullWaitOnlyHistogram.bucketBoundariesMs =
            [15000, 30000, 45000, 60000, 120000, 180000, 240000, 300000]
        ∧ imageSizeGauge ≠ durationPullHistogram
        ∧ imageSizeGauge ≠ durationPullWaitOnlyHistogram
        ∧ durationPullHistogram ≠ durationPullWaitOnlyHistogram := by
  cases ha : acceptEvent e with
  | false => left; simp [handleAddFunc, ha]
  | true =>
    cases hp : parseMessage e.message with
    | none => left; simp [handleAddFunc, ha, hp]
    | some r =>
      right
      exact ⟨r, rfl, by simp [handleAddFunc, ha, hp, recordCalls],
        by decide, by decide, by decide, by decide, by decide⟩

/-- C10: the duration values recorded are the parsed nanosecond values
converted to whole milliseconds truncating toward zero; in particular a
pull duration strictly between 0 and 1 millisecond records as 0. -/
theorem duration_truncation (e : Event) (r : ParsedPullRecord)
    (hp : parseMessage e.message = some r) (ha : acceptEvent e = true) :
    (handleAddFunc e).map MetricCall.value =
      [r.imageSizeBytes, msOf r.pullNs, msOf (wrap64 (r.totalNs - r.pullNs))]
    ∧ (0 ≤ r.pullNs →
        1000000 * msOf r.pullNs ≤ r.pullNs ∧ r.pullNs < 1000000 * msOf r.pullNs + 1000000)
    ∧ (0 < r.pullNs → r.pullNs < 1000000 → msOf r.pullNs = 0) := by
  refine ⟨by simp [handleAddFunc, ha, hp, recordCalls], ?_, ?_⟩
  · intro h0
    unfold msOf
    rw [Int.tdiv_eq_ediv h0 (by norm_num)]
    have h1 := Int.ediv_add_emod r.pullNs 1000000
    have h2 := Int.emod_nonneg r.pullNs (b := 1000000) (by norm_num)
    have h3 := Int.emod_lt_of_pos r.pullNs (b := 1000000) (by norm_num)
    omega
  · intro h0 h1
    unfold msOf
    rw [Int.tdiv_eq_ediv (by omega) (by norm_num)]
    exact Int.ediv_eq_zero_of_lt (by omega) h1

/-- The C10 theorem applied to a concrete event whose pull duration is
half a millisecond: the recorded value is 0. -/
theorem duration_truncation_w : msOf rHalf.pullNs = 0 ∧ 0 < rHalf.pullNs :=
  ⟨(duration_truncation evHalf rHalf (by decide) (by decide)).2.2 (by decide) (by decide),
    by decide⟩

/-- C3 (amended): for non-negative parsed durations, the wait-only
record call receives `totalDuration - pullDuration` truncated to whole
milliseconds toward zero: it is negative once the shortfall reaches one
millisecond, and only non-positive (possibly zero) for sub-millisecond
shortfalls. -/
theorem wait_only_computation (e : Event) (r : ParsedPullRecord)
    (hp : parseMessage e.message = some r) (ha : acceptEvent e = true)
    (h0p : 0 ≤ r.pullNs) (h0t : 0 ≤ r.totalNs) :
    (handleAddFunc e).map MetricCall.value =
      [r.imageSizeBytes, msOf r.pullNs, msOf (r.totalNs - r.pullNs)]
    ∧ (r.pullNs - r.totalNs ≥ 1000000 → msOf (r.totalNs - r.pullNs) < 0)
    ∧ (r.totalNs < r.pullNs → msOf (r.totalNs - r.pullNs) ≤ 0) := by
  have hr := parseMessage_range hp
  have hwrap : wrap64 (r.totalNs - r.pullNs) = r.totalNs - r.pullNs := by
    unfold wrap64
    rw [Int.emod_eq_of_lt (by omega) (by omega)]
    omega
  have hneg : ∀ z : Int, z < 0 → Int.tdiv z 1000000 = -Int.tdiv (-z) 1000000 := by
    intro z _
    have h := Int.neg_tdiv z 1000000
    omega
  refine ⟨?_, ?_, ?_⟩
  · have h := hwrap
    simp [handleAddFunc, ha, hp, recordCalls, h]
  · intro h
    unfold msOf
    rw [hneg _ (by omega), Int.tdiv_eq_ediv (by omega) (by norm_num)]
    have h1 := Int.ediv_add_emod (-(r.totalNs - r.pullNs)) 1000000
    have h2 := Int.emod_nonneg (-(r.totalNs - r.pullNs)) (b := 1000000) (by norm_num)
    have h3 := Int.emod_lt_of_pos (-(r.totalNs - r.pullNs)) (b := 1000000) (by norm_num)
    omega
  · intro h
    unfold msOf
    rw [hneg _ (by omega), Int.tdiv_eq_ediv (by omega) (by norm_num)]
    have h1 := Int.ediv_nonneg (a := -(r.totalNs - r.pullNs)) (b := 1000000) (by omega) (by norm_num)
    omega

/-- The C3 theorem applied to the 45-second scenario event: the three
recorded values are 500 bytes, 15000 ms and 30000 ms. -/
theorem wait_only_computation_w :
    (handleAddFunc evA).map MetricCall.value = [500, 15000, 30000] := by
  have h :=
    (wait_only_computation evA rA (by decide) (by decide) (by decide) (by decide)).1
  rw [h]
  decide

/-- Counterexample to C3 as stated: a sub-millisecond shortfall
(`totalDuration < pullDuration` by 500 ns) records 0, not a negative
value; and with a negative pull-duration token the int64 difference
wraps, recording a negative value although `totalDuration` exceeds
`pullDuration` by far. -/
theorem wait_only_computation_cex :
    (parseMessage evSub.message = some ⟨"r", 1000000500, 1000000000, 5⟩
      ∧ (1000000000 : Int) < 1000000500
      ∧ (handleAddFunc evSub).map MetricCall.value = [5, 1000, 0])
    ∧ (parseMessage evWrap.message = some ⟨"r", -9223369200000000000, 9223369200000000000, 5⟩
      ∧ (-9223369200000000000 : Int) < 9223369200000000000
      ∧ (handleAddFunc evWrap).map MetricCall.value = [5, -9223369200000, -5673709]) := by
  decide

theorem goParseInt64_digits {ds : List Char} (hne : ds ≠ []) (hdig : ds.all isDig = true) :
    goParseInt64 ds =
      if digitsVal ds < 9223372036854775808 then some ((digitsVal ds : Int)) else none := by
  have hemp : ds.isEmpty = false := by
    cases ds with
    | nil => exact absurd rfl hne
    | cons a t => rfl
  cases ds with
  | nil => exact absurd rfl hne
  | cons a t =>
    have ha : isDig a = true := by
      have := hdig
      simp [List.all_cons] at this
      exact this.1
    obtain ⟨ha1, ha2⟩ := isDig_toNat ha
    have t1 : ('+' : Char).toNat = 43 := rfl
    have t2 : ('-' : Char).toNat = 45 := rfl
    have e1 : (a == '+') = false := char_beq_false (by omega)
    have e2 : (a == '-') = false := char_beq_false (by omega)
    simp only [goParseInt64, e1, e2, Bool.false_eq_true, if_false, hemp, hdig,
      Bool.not_true]
    by_cases hv : digitsVal (a :: t) < 9223372036854775808
    · rw [if_neg (by omega), if_pos hv]
    · rw [if_pos (by omega), if_neg hv]

/-- C7 (amended): the size token is parsed by `strconv.ParseInt` as a
signed base-10 64-bit integer: a leading minus sign is accepted (the
value parses negative), and only values outside the signed 64-bit range
are a parse error, as the concrete overflowing message shows. -/
theorem image_size_parsing :
    (∀ ds : List Char, ds ≠ [] → ds.all isDig = true →
      (goParseInt64 ('-' :: ds) =
        if digitsVal ds ≤ 9223372036854775808 then some (-(digitsVal ds : Int)) else none)
      ∧ (goParseInt64 ds =
        if digitsVal ds < 9223372036854775808 then some ((digitsVal ds : Int)) else none))
    ∧ parseMessage "Successfully pulled image \"repo\" in 15s (45s including waiting). Image size: 9223372036854775808 bytes." = none := by
  refine ⟨?_, by decide⟩
  intro ds hne hdig
  have hemp : ds.isEmpty = false := by
    cases ds with
    | nil => exact absurd rfl hne
    | cons a t => rfl
  constructor
  · have e1 : (('-' : Char) == '+') = false := by decide
    have e2 : (('-' : Char) == '-') = true := by decide
    simp only [goParseInt64, e1, e2, if_true, Bool.false_eq_true, if_false, hemp, hdig,
      Bool.not_true, Bool.false_eq_true]
    by_cases hv : digitsVal ds ≤ 9223372036854775808
    · rw [if_neg (by omega), if_pos hv]
    · rw [if_pos (by omega), if_neg hv]
  · exact goParseInt64_digits hne hdig

/-- The C7 theorem applied to the digit string `5`: a minus-signed size
parses to -5. -/
theorem image_size_parsing_w : goParseInt64 ['-', '5'] = some (-5) := by
  have h := (image_size_parsing.1 ['5'] (by decide) (by decide)).1
  rw [h]
  decide

/-- Counterexample to C7 as stated: a size token with a leading minus
sign is not a parse error; the message parses and -5 is recorded by the
gauge. -/
theorem image_size_parsing_cex :
    parseMessage evNeg.message = some ⟨"repo", 15000000000, 45000000000, -5⟩
    ∧ (handleAddFunc evNeg).map MetricCall.value = [-5, 15000, 30000] := by
  decide

/-! Lemmas for the pod-name pattern. -/

theorem splitD_ne_nil (l : List Char) : splitD l ≠ [] := by
  cases l with
  | nil => simp [splitD]
  | cons c rest =>
    rw [splitD]
    split
    · simp
    · split <;> simp

theorem splitD_dash (rest : List Char) : splitD ('-' :: rest) = [] :: splitD rest := by
  simp [splitD]

theorem splitD_cons {c : Char} {rest s : List Char} {ss : List (List Char)}
    (hcd : c ≠ '-') (hss : splitD rest = s :: ss) :
    splitD (c :: rest) = (c :: s) :: ss := by
  rw [splitD, if_neg hcd, hss]

theorem allDot_of_no_newline {l : List Char} (h : '\n' ∉ l) : allDot l = true := by
  unfold allDot
  rw [List.all_eq_true]
  intro x hx
  have hne : x ≠ '\n' := fun e => h (e ▸ hx)
  simp [dotChar, hne]

theorem matchTail2_iff {l : List Char} (h : '\n' ∉ l) :
    matchTail2 l = true ↔ '-' ∈ l := by
  induction l with
  | nil => simp [matchTail2]
  | cons c rest ih =>
    have hc : c ≠ '\n' := fun e => h (by rw [e]; exact List.mem_cons_self _ _)
    have hrest : '\n' ∉ rest := fun hm => h (List.mem_cons_of_mem _ hm)
    have hdot : dotChar c = true := by simp [dotChar]; exact hc
    rw [matchTail2, allDot_of_no_newline hrest, hdot]
    simp only [Bool.and_true, Bool.true_and, Bool.or_eq_true, beq_iff_eq, ih hrest,
      List.mem_cons]
    constructor
    · rintro (h1 | h1)
      · exact Or.inl h1.symm
      · exact Or.inr h1
    · rintro (h1 | h1)
      · exact Or.inl h1.symm
      · exact Or.inr h1

theorem dash_mem_iff_splitD {l : List Char} : '-' ∈ l ↔ 2 ≤ (splitD l).length := by
  induction l with
  | nil => simp [splitD]
  | cons c rest ih =>
    by_cases hc : c = '-'
    · subst hc
      have hne := splitD_ne_nil rest
      simp [splitD_dash]
      exact Nat.one_le_iff_ne_zero.mpr (by simpa [List.length_eq_zero] using hne)
    · obtain ⟨s, ss, hss⟩ := List.exists_cons_of_ne_nil (splitD_ne_nil rest)
      rw [splitD_cons hc hss]
      rw [hss] at ih
      simp only [List.mem_cons, List.length_cons] at ih ⊢
      constructor
      · intro hm
        rcases hm with he | hm
        · exact absurd he.symm hc
        · exact ih.mp hm
      · intro hlen
        exact Or.inr (ih.mpr hlen)

theorem joinD_cons (x : List Char) (M : List (List Char)) :
    joinD (x :: M) = if M = [] then x else x ++ '-' :: joinD M := by
  cases M with
  | nil => simp [joinD]
  | cons y t => simp [joinD]

theorem matchGreedy_cons_some {c : Char} {rest p : List Char}
    (hd : dotChar c = true) (hm : matchGreedy rest = some p) :
    matchGreedy (c :: rest) = some (c :: p) := by
  rw [matchGreedy, hd, hm]
  rfl

theorem matchGreedy_cons_none {c : Char} {rest : List Char}
    (hd : dotChar c = true) (hm : matchGreedy rest = none) :
    matchGreedy (c :: rest) = if c == '-' && matchTail2 rest then some [] else none := by
  rw [matchGreedy, hd, hm]
  rfl

/-- Core of C5: on inputs free of newlines, the regular expression
`^(.*)-.*-.*$` matches exactly the names with at least three
dash-separated segments and captures everything before the last two. -/
theorem matchGreedy_eq {l : List Char} (h : '\n' ∉ l) :
    matchGreedy l =
      if 3 ≤ (splitD l).length then some (joinD ((splitD l).dropLast.dropLast))
      else none := by
  induction l with
  | nil => simp [matchGreedy, splitD, joinD]
  | cons c rest ih =>
    have hc : c ≠ '\n' := fun e => h (by rw [e]; exact List.mem_cons_self _ _)
    have hrest : '\n' ∉ rest := fun hm => h (List.mem_cons_of_mem _ hm)
    have hdot : dotChar c = true := by simp [dotChar]; exact hc
    by_cases h3 : 3 ≤ (splitD rest).length
    · have hmg : matchGreedy rest = some (joinD ((splitD rest).dropLast.dropLast)) := by
        rw [ih hrest, if_pos h3]
      rw [matchGreedy_cons_some hdot hmg]
      have hld := List.length_dropLast (splitD rest)
      by_cases hcd : c = '-'
      · subst hcd
        rw [splitD_dash]
        rw [if_pos (by rw [List.length_cons]; omega)]
        have hne1 : splitD rest ≠ [] := splitD_ne_nil rest
        have hne2 : (splitD rest).dropLast ≠ [] := by
          intro hz
          have h0 : (splitD rest).dropLast.length = 0 := by rw [hz]; rfl
          omega
        have hld2 := List.length_dropLast (splitD rest).dropLast
        have hMne : (splitD rest).dropLast.dropLast ≠ [] := by
          intro hz
          have h0 : (splitD rest).dropLast.dropLast.length = 0 := by rw [hz]; rfl
          omega
        rw [List.dropLast_cons_of_ne_nil hne1, List.dropLast_cons_of_ne_nil hne2]
        rw [joinD_cons, if_neg hMne]
        simp
      · obtain ⟨s, ss, hss⟩ := List.exists_cons_of_ne_nil (splitD_ne_nil rest)
        rw [splitD_cons hcd hss]
        have hlen : (splitD rest).length = ss.length + 1 := by rw [hss]; rfl
        rw [if_pos (by rw [List.length_cons]; omega)]
        have hssne : ss ≠ [] := by
          intro hz
          have h0 : ss.length = 0 := by rw [hz]; rfl
          omega
        have hldss := List.length_dropLast ss
        have hssdne : ss.dropLast ≠ [] := by
          intro hz
          have h0 : ss.dropLast.length = 0 := by rw [hz]; rfl
          omega
        rw [hss, List.dropLast_cons_of_ne_nil hssne, List.dropLast_cons_of_ne_nil hssne,
          List.dropLast_cons_of_ne_nil hssdne, List.dropLast_cons_of_ne_nil hssdne]
        rw [joinD_cons, joinD_cons]
        by_cases hM : ss.dropLast.dropLast = []
        · rw [if_pos hM, if_pos hM]
        · rw [if_neg hM, if_neg hM]
          simp
    · have hmg : matchGreedy rest = none := by rw [ih hrest, if_neg h3]
      rw [matchGreedy_cons_none hdot hmg]
      by_cases hcd : c = '-'
      · subst hcd
        rw [splitD_dash]
        by_cases h2 : 2 ≤ (splitD rest).length
        · have hdash : '-' ∈ rest := dash_mem_iff_splitD.mpr h2
          have hmt : matchTail2 rest = true := (matchTail2_iff hrest).mpr hdash
          have e1 : (('-' : Char) == '-') = true := by decide
          have hcond : ('-' == '-' && matchTail2 rest) = true := by rw [e1, hmt]; rfl
          rw [if_pos hcond]
          rw [if_pos (by rw [List.length_cons]; omega)]
          have hlen2 : (splitD rest).length = 2 := by omega
          obtain ⟨s, ss, hss⟩ := List.exists_cons_of_ne_nil (splitD_ne_nil rest)
          have hlenss : ss.length = 1 := by
            rw [hss] at hlen2
            simpa using hlen2
          obtain ⟨s2, ss2, hss2⟩ := List.exists_cons_of_ne_nil
            (show ss ≠ [] by intro hz; rw [hz] at hlenss; simp at hlenss)
          have hss2nil : ss2 = [] := by
            have h0 : ss2.length = 0 := by
              rw [hss2] at hlenss
              simpa using hlenss
            simpa [List.length_eq_zero] using h0
          rw [hss, hss2, hss2nil]
          rfl
        · have hnodash : '-' ∉ rest := fun hm => h2 (dash_mem_iff_splitD.mp hm)
          have hmt : matchTail2 rest = false := by
            cases hq : matchTail2 rest with
            | false => rfl
            | true => exact absurd ((matchTail2_iff hrest).mp hq) hnodash
          have hcond : ¬ (('-' == '-' && matchTail2 rest) = true) := by
            rw [hmt]
            simp
          rw [if_neg hcond]
          rw [if_neg (by rw [List.length_cons]; omega)]
      · have hbeq : (c == '-') = false := beq_eq_false_iff_ne.mpr hcd
        obtain ⟨s, ss, hss⟩ := List.exists_cons_of_ne_nil (splitD_ne_nil rest)
        rw [splitD_cons hcd hss]
        have hlen : (splitD rest).length = ss.length + 1 := by rw [hss]; rfl
        have hcond : ¬ ((c == '-' && matchTail2 rest) = true) := by
          rw [hbeq]
          simp
        rw [if_neg hcond]
        rw [if_neg (by rw [List.length_cons]; omega)]

/-- C5 (amended): for every pod name containing no newline character
(true of all Kubernetes pod names), the derived prefix tag is present
exactly when the name has at least three dash-separated segments, and
its value is everything before the last two segments. -/
theorem pod_stem_characterization (s : String) (h : '\n' ∉ s.data) :
    podStemTag s =
      (if 3 ≤ (splitD s.data).length
       then some (String.mk (joinD ((splitD s.data).dropLast.dropLast)))
       else none) := by
  unfold podStemTag
  rw [matchGreedy_eq h]
  by_cases h3 : 3 ≤ (splitD s.data).length
  · rw [if_pos h3, if_pos h3]
    rfl
  · rw [if_neg h3, if_neg h3]
    rfl

/-- The C5 theorem applied to the three concrete examples of the
specification. -/
theorem pod_stem_characterization_w :
    podStemTag "k8s-image-pull-metrics-5f588dd8cf-8lnm4" = some "k8s-image-pull-metrics"
    ∧ podStemTag "single" = none
    ∧ podStemTag "a-b" = none := by
  refine ⟨?_, ?_, ?_⟩
  · rw [pod_stem_characterization _ (by decide)]; decide
  · rw [pod_stem_characterization _ (by decide)]; decide
  · rw [pod_stem_characterization _ (by decide)]; decide

/-- Counterexample to C5 as stated: the name `a-b-c` followed by a
newline has three dash-separated segments, yet the tag is omitted,
because `.` in a Go regular expression does not match a newline. -/
theorem pod_stem_cex :
    podStemTag "a-b-c\n" = none ∧ 3 ≤ (splitD "a-b-c\n".data).length := by
  decide

/-! Lemmas for the message scan. -/

theorem beq_nl_false_of_nonspace {c : Char} (hc : goIsSpace c = false) :
    (c == '\n') = false := by
  cases hq : c == '\n' with
  | false => rfl
  | true =>
    have he : c = '\n' := by simpa using hq
    rw [he] at hc
    exact absurd hc (by decide)

theorem all_nonspace_head {c : Char} {t : List Char}
    (h : (c :: t).all (fun c => !goIsSpace c) = true) : goIsSpace c = false := by
  simp only [List.all_cons, Bool.and_eq_true, Bool.not_eq_true'] at h
  exact h.1

theorem all_nonspace_tail {c : Char} {t : List Char}
    (h : (c :: t).all (fun c => !goIsSpace c) = true) :
    t.all (fun c => !goIsSpace c) = true := by
  simp only [List.all_cons, Bool.and_eq_true] at h
  exact h.2

theorem fspaceRest_nonspace {c : Char} (w : List Char) (hc : goIsSpace c = false) :
    fspaceRest (c :: w) = some (c :: w) := by
  rw [fspaceRest, beq_nl_false_of_nonspace hc, hc]
  rfl

theorem fspace_tok {t : List Char} (hne : t ≠ [])
    (hns : t.all (fun c => !goIsSpace c) = true) :
    ∀ X, fspace (' ' :: (t ++ X)) = some (t ++ X) := by
  intro X
  obtain ⟨c, t', he⟩ := List.exists_cons_of_ne_nil hne
  subst he
  have hc : goIsSpace c = false := all_nonspace_head hns
  have h1 : fspace (' ' :: ((c :: t') ++ X)) = fspaceRest (c :: (t' ++ X)) := rfl
  rw [h1, fspaceRest_nonspace _ hc]
  rfl

theorem skipSpaceTok_nonspace {c : Char} (w : List Char) (hc : goIsSpace c = false) :
    skipSpaceTok (c :: w) = some (c :: w) := by
  rw [skipSpaceTok, beq_nl_false_of_nonspace hc, hc]
  rfl

theorem tokenRun_app {t : List Char} (hns : t.all (fun c => !goIsSpace c) = true) :
    ∀ r, tokenRun (t ++ (' ' :: r)) = (t, ' ' :: r) := by
  induction t with
  | nil => intro r; rfl
  | cons c t' ih =>
    intro r
    rw [List.cons_append, tokenRun, all_nonspace_head hns]
    simp only [Bool.false_eq_true, if_false]
    rw [ih (all_nonspace_tail hns) r]

theorem scanS_app {t : List Char} (hne : t ≠ [])
    (hns : t.all (fun c => !goIsSpace c) = true) :
    ∀ r, scanS (t ++ (' ' :: r)) = some (t, ' ' :: r) := by
  intro r
  obtain ⟨c, t', he⟩ := List.exists_cons_of_ne_nil hne
  subst he
  have hc : goIsSpace c = false := all_nonspace_head hns
  have h1 : skipSpaceTok ((c :: t') ++ (' ' :: r)) = some ((c :: t') ++ (' ' :: r)) := by
    rw [List.cons_append, skipSpaceTok_nonspace _ hc]
  have htr : tokenRun ((c :: t') ++ (' ' :: r)) = (c :: t', ' ' :: r) := tokenRun_app hns r
  simp only [scanS, h1, htr]
  rfl

theorem readQuotedBody_app {ref : List Char} (hq : '"' ∉ ref) (hb : '\\' ∉ ref) :
    ∀ (fuel : Nat) (y : List Char), ref.length + 1 ≤ fuel →
      readQuotedBody fuel (ref ++ ('"' :: y)) = some (ref, y) := by
  induction ref with
  | nil =>
    intro fuel y hf
    cases fuel with
    | zero => omega
    | succ f => rfl
  | cons c t ih =>
    intro fuel y hf
    cases fuel with
    | zero => simp at hf
    | succ f =>
      have hc1 : (c == '\\') = false :=
        beq_eq_false_iff_ne.mpr fun e => hb (by rw [e]; exact List.mem_cons_self _ _)
      have hc2 : (c == '"') = false :=
        beq_eq_false_iff_ne.mpr fun e => hq (by rw [e]; exact List.mem_cons_self _ _)
      rw [List.cons_append, readQuotedBody.eq_def]
      simp only [hc1, hc2, Bool.false_eq_true, if_false]
      rw [ih (fun hm => hq (List.mem_cons_of_mem _ hm))
        (fun hm => hb (List.mem_cons_of_mem _ hm)) f y (by simp at hf; omega)]
      rfl

theorem unquoteBody_id {ref : List Char} (hq : '"' ∉ ref) (hb : '\\' ∉ ref)
    (hn : '\n' ∉ ref) :
    unquoteBody (ref.length + 1) ref = some ref := by
  induction ref with
  | nil => rfl
  | cons c t ih =>
    have hc1 : (c == '\n') = false :=
      beq_eq_false_iff_ne.mpr fun e => hn (by rw [e]; exact List.mem_cons_self _ _)
    have hc2 : (c == '"') = false :=
      beq_eq_false_iff_ne.mpr fun e => hq (by rw [e]; exact List.mem_cons_self _ _)
    have hc3 : (c == '\\') = false :=
      beq_eq_false_iff_ne.mpr fun e => hb (by rw [e]; exact List.mem_cons_self _ _)
    have hlen : (c :: t).length + 1 = (t.length + 1) + 1 := by simp
    rw [hlen, unquoteBody, hc1, hc2, hc3]
    simp only [Bool.or_self, Bool.false_eq_true, if_false]
    rw [ih (fun hm => hq (List.mem_cons_of_mem _ hm)) (fun hm => hb (List.mem_cons_of_mem _ hm))
      (fun hm => hn (List.mem_cons_of_mem _ hm))]
    rfl

theorem scanQ_eq {ref : List Char} (hq : '"' ∉ ref) (hb : '\\' ∉ ref) (hn : '\n' ∉ ref) :
    ∀ y, scanQ ('"' :: (ref ++ ('"' :: y))) = some (ref, y) := by
  intro y
  have h0 : skipSpaceTok ('"' :: (ref ++ ('"' :: y))) = some ('"' :: (ref ++ ('"' :: y))) := rfl
  have hrq : readQuotedBody ((ref ++ ('"' :: y)).length + 1) (ref ++ ('"' :: y)) =
      some (ref, y) :=
    readQuotedBody_app hq hb _ y (by simp)
  simp only [scanQ, h0, hrq, unquoteBody_id hq hb hn]

theorem scanQ_glue {ref : List Char} (hq : '"' ∉ ref) (hb : '\\' ∉ ref) (hn : '\n' ∉ ref) :
    ∀ Z, scanQ ('"' :: (ref ++ (cQIn ++ Z))) = some (ref, cIn ++ Z) := by
  intro Z
  have e : ref ++ ((cQIn : List Char) ++ Z) = ref ++ ('"' :: (cIn ++ Z)) := rfl
  rw [e]
  exact scanQ_eq hq hb hn _

theorem scanPre_eq (x : List Char) : scanPre (cPre ++ x) = some ('"' :: x) := rfl

theorem scanMid_glue (w : List Char) : scanMid (cIn ++ w) = fspace (' ' :: w) := rfl

theorem paren_glue (Q : List Char) : (cParenSp : List Char) ++ Q = ' ' :: ('(' :: Q) := rfl

theorem fspace_paren (Q : List Char) : fspace (' ' :: ('(' :: Q)) = some ('(' :: Q) := rfl

theorem litm_paren (Q : List Char) : litm cParenLit ('(' :: Q) = some Q := rfl

theorem wait_glue (R : List Char) : (cWaitSp : List Char) ++ R = ' ' :: (cWait ++ R) := rfl

theorem scanWait_steps (w : List Char) :
    scanWait (' ' :: (cWait ++ w)) = fspace (' ' :: w) := rfl

theorem bytes_glue (R : List Char) : (cBytesSp : List Char) ++ R = ' ' :: (cBytes ++ R) := rfl

theorem scanEnd_steps (rest : List Char) :
    scanEnd (' ' :: (cBytes ++ rest)) = some rest := rfl

/-- The scan of a message assembled from the section 4.2 grammar: the
four captures are returned exactly, whatever text follows the terminal
literal, provided the image reference holds no quote, backslash or
newline and the three tokens are non-empty and free of spaces. -/
theorem scanMessage_msgParts {ref d1 d2 n : List Char} (rest : List Char)
    (hq : '"' ∉ ref) (hb : '\\' ∉ ref) (hn : '\n' ∉ ref)
    (hd1ne : d1 ≠ []) (hd1ns : d1.all (fun c => !goIsSpace c) = true)
    (hd2ne : d2 ≠ []) (hd2ns : d2.all (fun c => !goIsSpace c) = true)
    (hnne : n ≠ []) (hnns : n.all (fun c => !goIsSpace c) = true) :
    scanMessage (msgParts ref d1 d2 n rest) = some (ref, d1, d2, n) := by
  simp only [scanMessage, msgParts, scanPre_eq, scanQ_glue hq hb hn, scanMid_glue,
    fspace_tok hd1ne hd1ns, paren_glue, scanS_app hd1ne hd1ns, fspace_paren, litm_paren,
    wait_glue, scanS_app hd2ne hd2ns, scanWait_steps, fspace_tok hnne hnns, bytes_glue,
    scanS_app hnne hnns, scanEnd_steps]

/-! Concrete grammar parts for the scenario message. -/

def refEx : List Char := "repo/example:99cd3b4".data
def tok15s : List Char := "15s".data
def tok45s : List Char := "45s".data
def tok500 : List Char := "500".data

/-- C8 (amended): the scan is anchored at the start and requires the
whole format including the terminal literal ` bytes.` with its period,
but `Sscanf` never demands that the input be exhausted: any trailing
text after the period is ignored, while dropping the period is a parse
failure. -/
theorem trailing_period_semantics (rest : List Char) :
    parseMessage (String.mk (msgParts refEx tok15s tok45s tok500 rest)) =
      some ⟨"repo/example:99cd3b4", 15000000000, 45000000000, 500⟩
    ∧ String.mk (msgParts refEx tok15s tok45s tok500 []) =
      "Successfully pulled image \"repo/example:99cd3b4\" in 15s (45s including waiting). Image size: 500 bytes."
    ∧ parseMessage "Successfully pulled image \"repo/example:99cd3b4\" in 15s (45s including waiting). Image size: 500 bytes" = none := by
  refine ⟨?_, by decide, by decide⟩
  have hs : scanMessage (String.mk (msgParts refEx tok15s tok45s tok500 rest)).data =
      some (refEx, tok15s, tok45s, tok500) :=
    scanMessage_msgParts rest (by decide) (by decide) (by decide) (by decide) (by decide)
      (by decide) (by decide) (by decide) (by decide)
  have g1 : goParseDuration tok15s = some 15000000000 := by decide
  have g2 : goParseDuration tok45s = some 45000000000 := by decide
  have g3 : goParseInt64 tok500 = some 500 := by decide
  have g4 : String.mk refEx = "repo/example:99cd3b4" := by decide
  simp only [parseMessage, hs, g1, g2, g3, g4]

/-- Counterexample to C8 as stated: appending extra text after the
final ` bytes.` literal still parses successfully, while omitting the
trailing period makes the parse fail. -/
theorem trailing_period_semantics_cex :
    parseMessage ("Successfully pulled image \"repo/example:99cd3b4\" in 15s (45s including waiting). Image size: 500 bytes." ++ " and some trailing text") =
      some ⟨"repo/example:99cd3b4", 15000000000, 45000000000, 500⟩
    ∧ parseMessage "Successfully pulled image \"repo/example:99cd3b4\" in 15s (45s including waiting). Image size: 500 bytes" = none := by
  decide

/-! Refinement of `goParseDuration` against the section 4.2 duration
grammar. -/

/-- Whether the input starts with a decimal digit. -/
def headDig : List Char → Bool
  | [] => false
  | c :: _ => isDig c

theorem all_isDig_head {c : Char} {t : List Char} (h : (c :: t).all isDig = true) :
    isDig c = true := by
  simp only [List.all_cons, Bool.and_eq_true] at h
  exact h.1

theorem all_isDig_tail {c : Char} {t : List Char} (h : (c :: t).all isDig = true) :
    t.all isDig = true := by
  simp only [List.all_cons, Bool.and_eq_true] at h
  exact h.2

theorem foldD_ge (ds : List Char) :
    ∀ x : Nat, x ≤ ds.foldl (fun a c => a * 10 + digVal c) x := by
  induction ds with
  | nil => intro x; exact Nat.le_refl x
  | cons c t ih =>
    intro x
    have h1 : x ≤ x * 10 + digVal c := by omega
    exact Nat.le_trans h1 (ih (x * 10 + digVal c))

theorem leadingInt_app : ∀ (ds : List Char), ds.all isDig = true →
    ∀ {rest : List Char}, headDig rest = false →
    ∀ x : Nat, ds.foldl (fun a c => a * 10 + digVal c) x ≤ 9223372036854775808 →
      leadingInt (ds ++ rest) x = some (ds.foldl (fun a c => a * 10 + digVal c) x, rest) := by
  intro ds
  induction ds with
  | nil =>
    intro _ rest hrest x _
    cases rest with
    | nil => rfl
    | cons c t =>
      have hc : isDig c = false := hrest
      rw [List.nil_append, leadingInt, hc]
      rfl
  | cons c t ih =>
    intro hall rest hrest x hb
    have hc : isDig c = true := all_isDig_head hall
    have htall : t.all isDig = true := all_isDig_tail hall
    have hfold : (c :: t).foldl (fun a c => a * 10 + digVal c) x =
        t.foldl (fun a c => a * 10 + digVal c) (x * 10 + digVal c) := rfl
    rw [hfold] at hb ⊢
    have hxy : x * 10 + digVal c ≤ t.foldl (fun a c => a * 10 + digVal c) (x * 10 + digVal c) :=
      foldD_ge t _
    have hK : ¬ (x > 922337203685477580) := by omega
    have hM : ¬ (x * 10 + digVal c > 9223372036854775808) := by omega
    rw [List.cons_append, leadingInt, hc]
    simp only [if_true, if_neg hK, if_neg hM]
    exact ih htall hrest _ hb

theorem leadingFraction_app : ∀ (ds : List Char), ds.all isDig = true →
    ∀ {rest : List Char}, headDig rest = false →
    ∀ x scale ov, leadingFraction (ds ++ rest) x scale ov =
      ((leadingFraction ds x scale ov).1, (leadingFraction ds x scale ov).2.1, rest) := by
  intro ds
  induction ds with
  | nil =>
    intro _ rest hrest x scale ov
    cases rest with
    | nil => rfl
    | cons c t =>
      have hc : isDig c = false := hrest
      rw [List.nil_append, leadingFraction, leadingFraction, hc]
      rfl
  | cons c t ih =>
    intro hall rest hrest x scale ov
    have hc : isDig c = true := all_isDig_head hall
    have htall : t.all isDig = true := all_isDig_tail hall
    rw [List.cons_append, leadingFraction, hc]
    conv_rhs => rw [leadingFraction, hc]
    cases ov with
    | true =>
      simp only [if_true]
      exact ih htall hrest x scale true
    | false =>
      simp only [if_true, Bool.false_eq_true, if_false]
      by_cases hx : x > 922337203685477580
      · simp only [if_pos hx]
        exact ih htall hrest x scale true
      · simp only [if_neg hx]
        by_cases hy : x * 10 + digVal c > 9223372036854775808
        · simp only [if_pos hy]
          exact ih htall hrest x scale true
        · simp only [if_neg hy]
          exact ih htall hrest _ _ false

theorem fracSplit_not_dot {c : Char} (hc : (c == '.') = false) (w : List Char) :
    fracSplit (c :: w) = (0, 1, c :: w, false) := by
  rw [fracSplit.eq_def]
  split
  · rename_i t heq
    injection heq with h1 _
    rw [h1] at hc
    simp at hc
  · rfl

theorem fracSplit_nodot {u : List Char}
    (hu : u.all (fun c => !(c == '.' || isDig c)) = true) (hne : u ≠ []) (next : List Char) :
    fracSplit (u ++ next) = (0, 1, u ++ next, false) := by
  obtain ⟨c, w, rfl⟩ := List.exists_cons_of_ne_nil hne
  rw [List.cons_append]
  apply fracSplit_not_dot
  have h1 : (!(c == '.' || isDig c)) = true := by
    simp only [List.all_cons, Bool.and_eq_true] at hu
    exact hu.1
  cases hcd : (c == '.') with
  | false => rfl
  | true => rw [hcd] at h1; simp at h1

theorem headDig_nodot {u : List Char}
    (hu : u.all (fun c => !(c == '.' || isDig c)) = true) (hne : u ≠ []) (next : List Char) :
    headDig (u ++ next) = false := by
  obtain ⟨c, w, rfl⟩ := List.exists_cons_of_ne_nil hne
  rw [List.cons_append]
  show isDig c = false
  have h1 : (!(c == '.' || isDig c)) = true := by
    simp only [List.all_cons, Bool.and_eq_true] at hu
    exact hu.1
  cases hcd : isDig c with
  | false => rfl
  | true => rw [hcd] at h1; simp at h1

theorem fracSplit_dotcase {fpl X : List Char} (hfd : fpl.all isDig = true) (hfne : fpl ≠ [])
    (hX : headDig X = false) :
    fracSplit ('.' :: (fpl ++ X)) =
      ((leadingFraction fpl 0 1 false).1, (leadingFraction fpl 0 1 false).2.1, X, true) := by
  have hlen : ((fpl ++ X).length ≠ X.length) = True := eq_true (by
    simp only [List.length_append]
    have := List.length_pos.mpr hfne
    omega)
  simp only [fracSplit, leadingFraction_app fpl hfd hX, hlen, decide_True]

theorem uText_ne (i : Fin 4) : uText i ≠ [] := by fin_cases i <;> decide

theorem uText_all (i : Fin 4) :
    (uText i).all (fun c => !(c == '.' || isDig c)) = true := by fin_cases i <;> decide

theorem uText_isEmpty (i : Fin 4) : (uText i).isEmpty = false := by fin_cases i <;> rfl

theorem unitNs_uText (i : Fin 4) : unitNs (uText i) = some (uNs i) := by fin_cases i <;> rfl

theorem uNs_pos (i : Fin 4) : 0 < uNs i := by fin_cases i <;> decide

theorem takeWhile_of_all {p : Char → Bool} : ∀ {l : List Char}, l.all p = true →
    l.takeWhile p = l := by
  intro l
  induction l with
  | nil => intro _; rfl
  | cons c t ih =>
    intro h
    simp only [List.all_cons, Bool.and_eq_true] at h
    rw [List.takeWhile_cons_of_pos h.1, ih h.2]

theorem takeWhile_unit {u next : List Char}
    (hu : u.all (fun c => !(c == '.' || isDig c)) = true)
    (hnx : next = [] ∨ headDotOrDig next = true) :
    (u ++ next).takeWhile (fun c => !(c == '.' || isDig c)) = u := by
  rw [List.takeWhile_append, takeWhile_of_all hu, if_pos rfl]
  rcases hnx with h | h
  · subst h; simp
  · cases next with
    | nil => simp
    | cons c t =>
      have hc : (c == '.' || isDig c) = true := h
      rw [List.takeWhile_cons_of_neg (by simp [hc]), List.append_nil]

theorem fracF_zero (u s : Nat) : fracF 0 u s = 0 := by
  simp only [fracF, fOfNatQ, fMulQ]
  rw [show rndQ 0 1 = (0, 1) from rfl]
  simp only [Nat.zero_mul, Nat.one_mul]
  rw [show ∀ q, rndQ 0 q = (0, 1) from fun q => by rw [rndQ]; simp]
  rfl

theorem parseComp_comp {ip : List Char} {fp : Option (List Char)} {ui : Fin 4}
    (hwf : compWf ⟨ip, fp, ui⟩ = true) {next : List Char}
    (hnext : next = [] ∨ headDotOrDig next = true)
    (hbound : compNs ⟨ip, fp, ui⟩ ≤ 9223372036854775808) :
    parseComp (compText ⟨ip, fp, ui⟩ ++ next) = some (compNs ⟨ip, fp, ui⟩, next) := by
  cases fp with
  | none =>
    have hipd : ip.all isDig = true := by
      simp only [compWf, Bool.and_eq_true] at hwf; exact hwf.1.2
    have hipne : ip ≠ [] := by
      simp only [compWf, Bool.and_eq_true] at hwf
      simpa using hwf.1.1
    obtain ⟨i0, ir, hip⟩ := List.exists_cons_of_ne_nil hipne
    have hi0 : isDig i0 = true := by rw [hip] at hipd; exact all_isDig_head hipd
    have hct : compText ⟨ip, none, ui⟩ ++ next = ip ++ (uText ui ++ next) := by
      simp [compText, List.append_assoc]
    have hcn : compNs ⟨ip, none, ui⟩ = digitsVal ip * uNs ui := by
      simp [compNs, fracNs]
    have hXd : headDig (uText ui ++ next) = false :=
      headDig_nodot (uText_all ui) (uText_ne ui) next
    have hvle : digitsVal ip * uNs ui ≤ 9223372036854775808 := by rw [← hcn]; exact hbound
    have hvle1 : digitsVal ip ≤ 9223372036854775808 := by
      have h1 : digitsVal ip ≤ digitsVal ip * uNs ui :=
        Nat.le_mul_of_pos_right _ (uNs_pos ui)
      omega
    have hli : leadingInt (ip ++ (uText ui ++ next)) 0 = some (digitsVal ip, uText ui ++ next) :=
      leadingInt_app ip hipd hXd 0 hvle1
    have hfs : fracSplit (uText ui ++ next) = (0, 1, uText ui ++ next, false) :=
      fracSplit_nodot (uText_all ui) (uText_ne ui) next
    have hTW : (uText ui ++ next).takeWhile (fun c => !(c == '.' || isDig c)) = uText ui :=
      takeWhile_unit (uText_all ui) hnext
    have hemp : (ip ++ (uText ui ++ next)).isEmpty = false := by rw [hip]; rfl
    have hhd : headDotOrDig (ip ++ (uText ui ++ next)) = true := by
      rw [hip, List.cons_append]
      show (i0 == '.' || isDig i0) = true
      rw [hi0]
      simp
    have hpre : decide ((uText ui ++ next).length ≠ (ip ++ (uText ui ++ next)).length) = true := by
      apply decide_eq_true
      simp only [List.length_append]
      have := List.length_pos.mpr hipne
      omega
    have hdiv : ¬ (digitsVal ip > 9223372036854775808 / uNs ui) := by
      simp only [gt_iff_lt, not_lt]
      exact (Nat.le_div_iff_mul_le (uNs_pos ui)).mpr hvle
    rw [hct, parseComp]
    simp only [hemp, Bool.false_eq_true, if_false, hhd, Bool.not_true, hli, hfs, hpre,
      Bool.not_false, Bool.false_and, hTW, List.drop_left, uText_isEmpty, unitNs_uText,
      eq_false hdiv, if_false, gt_iff_lt, lt_self_iff_false, hcn]
  | some fpl =>
    have hipd : ip.all isDig = true := by
      simp only [compWf, Bool.and_eq_true] at hwf; exact hwf.1.2
    have hipne : ip ≠ [] := by
      simp only [compWf, Bool.and_eq_true] at hwf
      simpa using hwf.1.1
    have hfd : fpl.all isDig = true := by
      simp only [compWf, Bool.and_eq_true] at hwf; exact hwf.2.2
    have hfne : fpl ≠ [] := by
      simp only [compWf, Bool.and_eq_true] at hwf
      simpa using hwf.2.1
    obtain ⟨i0, ir, hip⟩ := List.exists_cons_of_ne_nil hipne
    have hi0 : isDig i0 = true := by rw [hip] at hipd; exact all_isDig_head hipd
    have hct : compText ⟨ip, some fpl, ui⟩ ++ next =
        ip ++ ('.' :: (fpl ++ (uText ui ++ next))) := by
      simp [compText, List.append_assoc]
    have hcn : compNs ⟨ip, some fpl, ui⟩ = digitsVal ip * uNs ui +
        fracF (leadingFraction fpl 0 1 false).1 (uNs ui) (leadingFraction fpl 0 1 false).2.1 := by
      simp [compNs, fracNs]
    have hXd : headDig (uText ui ++ next) = false :=
      headDig_nodot (uText_all ui) (uText_ne ui) next
    have hdotd : headDig ('.' :: (fpl ++ (uText ui ++ next))) = false := rfl
    have hvle : digitsVal ip * uNs ui ≤ 9223372036854775808 := by
      have h := hbound
      rw [hcn] at h
      exact Nat.le_trans (Nat.le_add_right _ _) h
    have hvle1 : digitsVal ip ≤ 9223372036854775808 := by
      have h1 : digitsVal ip ≤ digitsVal ip * uNs ui :=
        Nat.le_mul_of_pos_right _ (uNs_pos ui)
      omega
    have hli : leadingInt (ip ++ ('.' :: (fpl ++ (uText ui ++ next)))) 0 =
        some (digitsVal ip, '.' :: (fpl ++ (uText ui ++ next))) :=
      leadingInt_app ip hipd hdotd 0 hvle1
    have hfs : fracSplit ('.' :: (fpl ++ (uText ui ++ next))) =
        ((leadingFraction fpl 0 1 false).1, (leadingFraction fpl 0 1 false).2.1,
          uText ui ++ next, true) :=
      fracSplit_dotcase hfd hfne hXd
    have hTW : (uText ui ++ next).takeWhile (fun c => !(c == '.' || isDig c)) = uText ui :=
      takeWhile_unit (uText_all ui) hnext
    have hemp : (ip ++ ('.' :: (fpl ++ (uText ui ++ next)))).isEmpty = false := by rw [hip]; rfl
    have hhd : headDotOrDig (ip ++ ('.' :: (fpl ++ (uText ui ++ next)))) = true := by
      rw [hip, List.cons_append]
      show (i0 == '.' || isDig i0) = true
      rw [hi0]
      simp
    have hdiv : ¬ (digitsVal ip > 9223372036854775808 / uNs ui) := by
      simp only [gt_iff_lt, not_lt]
      exact (Nat.le_div_iff_mul_le (uNs_pos ui)).mpr hvle
    rw [hct, parseComp]
    by_cases hF : (leadingFraction fpl 0 1 false).1 > 0
    · have hv3 : ¬ (digitsVal ip * uNs ui +
          fracF (leadingFraction fpl 0 1 false).1 (uNs ui) (leadingFraction fpl 0 1 false).2.1 >
            9223372036854775808) := by
        have h := hbound
        rw [hcn] at h
        omega
      simp only [hemp, Bool.false_eq_true, if_false, hhd, Bool.not_true, hli, hfs,
        Bool.not_false, Bool.and_false, hTW, List.drop_left, uText_isEmpty, unitNs_uText,
        eq_false hdiv, eq_true hF, if_true, eq_false hv3, hcn]
    · have hF0 : (leadingFraction fpl 0 1 false).1 = 0 := by omega
      simp only [hemp, Bool.false_eq_true, if_false, hhd, Bool.not_true, hli, hfs,
        Bool.not_false, Bool.and_false, hTW, List.drop_left, uText_isEmpty, unitNs_uText,
        eq_false hdiv, hF0, gt_iff_lt, lt_self_iff_false, hcn, fracF_zero,
        Nat.add_zero]

theorem durText_cons (c : DurComp) (cs : List DurComp) :
    durText (c :: cs) = compText c ++ durText cs := rfl

theorem specDurNs_cons (c : DurComp) (cs : List DurComp) :
    specDurNs (c :: cs) = compNs c + specDurNs cs := by simp [specDurNs]

theorem compText_ne (c : DurComp) (h : compWf c = true) : compText c ≠ [] := by
  have hipne : c.ipart ≠ [] := by
    simp only [compWf, Bool.and_eq_true] at h
    simpa using h.1.1
  obtain ⟨x, xs, hx⟩ := List.exists_cons_of_ne_nil hipne
  simp [compText, hx]

theorem compText_head (c : DurComp) (h : compWf c = true) :
    headDotOrDig (compText c) = true := by
  have hipne : c.ipart ≠ [] := by
    simp only [compWf, Bool.and_eq_true] at h
    simpa using h.1.1
  have hipd : c.ipart.all isDig = true := by
    simp only [compWf, Bool.and_eq_true] at h
    exact h.1.2
  obtain ⟨x, xs, hx⟩ := List.exists_cons_of_ne_nil hipne
  rw [hx] at hipd
  simp [compText, hx, headDotOrDig, all_isDig_head hipd]

theorem headDotOrDig_app {l : List Char} (hne : l ≠ []) (h : headDotOrDig l = true)
    (next : List Char) : headDotOrDig (l ++ next) = true := by
  obtain ⟨c, w, rfl⟩ := List.exists_cons_of_ne_nil hne
  rw [List.cons_append]
  simp only [headDotOrDig] at h ⊢
  exact h

theorem durText_head {cs : List DurComp} (h : cs.all compWf = true) :
    durText cs = [] ∨ headDotOrDig (durText cs) = true := by
  cases cs with
  | nil => exact Or.inl rfl
  | cons c cs' =>
    have hcwf : compWf c = true := by
      simp only [List.all_cons, Bool.and_eq_true] at h
      exact h.1
    exact Or.inr (by
      rw [durText_cons]
      exact headDotOrDig_app (compText_ne c hcwf) (compText_head c hcwf) _)

theorem compText_len2 (c : DurComp) (h : compWf c = true) : 2 ≤ (compText c).length := by
  have hipne : c.ipart ≠ [] := by
    simp only [compWf, Bool.and_eq_true] at h
    simpa using h.1.1
  have h1 : 0 < c.ipart.length := List.length_pos.mpr hipne
  have h2 : 0 < (uText c.uidx).length := List.length_pos.mpr (uText_ne c.uidx)
  simp only [compText, List.length_append]
  omega

theorem durText_len {cs : List DurComp} (h : cs.all compWf = true) :
    cs.length ≤ (durText cs).length := by
  induction cs with
  | nil => simp [durText]
  | cons c cs' ih =>
    have hcwf : compWf c = true := by
      simp only [List.all_cons, Bool.and_eq_true] at h
      exact h.1
    have hall' : cs'.all compWf = true := by
      simp only [List.all_cons, Bool.and_eq_true] at h
      exact h.2
    have h2 := compText_len2 c hcwf
    have h3 := ih hall'
    simp only [durText_cons, List.length_append, List.length_cons]
    omega

theorem signSplit_nosign {c : Char} (h1 : (c == '-') = false) (h2 : (c == '+') = false)
    (t : List Char) : signSplit (c :: t) = (false, c :: t) := by
  simp only [signSplit, h1, h2, Bool.false_eq_true, if_false]

theorem durLoop_durText : ∀ (cs : List DurComp), cs.all compWf = true →
    ∀ (d fuel : Nat), cs.length + 1 ≤ fuel → d + specDurNs cs ≤ 9223372036854775807 →
      durLoop fuel (durText cs) d = some (d + specDurNs cs) := by
  intro cs
  induction cs with
  | nil =>
    intro _ d fuel hf hb
    cases fuel with
    | zero => simp at hf
    | succ f => simp [durText, durLoop, specDurNs]
  | cons c cs' ih =>
    intro hall d fuel hf hb
    have hcwf : compWf c = true := by
      simp only [List.all_cons, Bool.and_eq_true] at hall
      exact hall.1
    have hall' : cs'.all compWf = true := by
      simp only [List.all_cons, Bool.and_eq_true] at hall
      exact hall.2
    rw [specDurNs_cons] at hb ⊢
    cases fuel with
    | zero => simp at hf
    | succ f =>
      obtain ⟨x0, xr, hx⟩ := List.exists_cons_of_ne_nil (compText_ne c hcwf)
      have hshape : durText (c :: cs') = x0 :: (xr ++ durText cs') := by
        rw [durText_cons, hx, List.cons_append]
      have hpc : parseComp (x0 :: (xr ++ durText cs')) = some (compNs c, durText cs') := by
        rw [← List.cons_append, ← hx]
        obtain ⟨cip, cfp, cui⟩ := c
        exact parseComp_comp hcwf (durText_head hall') (by omega)
      rw [hshape, durLoop, hpc]
      simp only []
      have hmod : (d + compNs c) % 18446744073709551616 = d + compNs c :=
        Nat.mod_eq_of_lt (by omega)
      rw [hmod, if_neg (by omega)]
      rw [ih hall' (d + compNs c) f (by simp only [List.length_cons] at hf; omega) (by omega)]
      rw [Nat.add_assoc]

theorem goParseDuration_durText {cs : List DurComp} (hwf : durWf cs = true)
    (hbound : specDurNs cs ≤ 9223372036854775807) :
    goParseDuration (durText cs) = some ((specDurNs cs : Int)) := by
  have hne : cs ≠ [] := by
    simp only [durWf, Bool.and_eq_true] at hwf
    simpa using hwf.1.1
  have hall : cs.all compWf = true := by
    simp only [durWf, Bool.and_eq_true] at hwf
    exact hwf.1.2
  obtain ⟨c, cs', rfl⟩ := List.exists_cons_of_ne_nil hne
  have hcwf : compWf c = true := by
    simp only [List.all_cons, Bool.and_eq_true] at hall
    exact hall.1
  obtain ⟨x0, xr, hx⟩ := List.exists_cons_of_ne_nil (compText_ne c hcwf)
  have hshape : durText (c :: cs') = x0 :: (xr ++ durText cs') := by
    rw [durText_cons, hx, List.cons_append]
  have hh2 : (x0 == '.' || isDig x0) = true := by
    have hhead := compText_head c hcwf
    rw [hx] at hhead
    exact hhead
  have h45 : (x0 == '-') = false := by
    cases hdot : (x0 == '.') with
    | true =>
      have hx0 : x0 = '.' := by simpa using hdot
      rw [hx0]
      rfl
    | false =>
      rw [hdot] at hh2
      simp only [Bool.false_or] at hh2
      have hb := isDig_toNat hh2
      have t1 : ('-' : Char).toNat = 45 := rfl
      exact char_beq_false (by omega)
  have h43 : (x0 == '+') = false := by
    cases hdot : (x0 == '.') with
    | true =>
      have hx0 : x0 = '.' := by simpa using hdot
      rw [hx0]
      rfl
    | false =>
      rw [hdot] at hh2
      simp only [Bool.false_or] at hh2
      have hb := isDig_toNat hh2
      have t1 : ('+' : Char).toNat = 43 := rfl
      exact char_beq_false (by omega)
  have hss : signSplit (durText (c :: cs')) = (false, durText (c :: cs')) := by
    rw [hshape]
    exact signSplit_nosign h45 h43 _
  have hlen2 : 2 ≤ (durText (c :: cs')).length := by
    rw [durText_cons, List.length_append]
    have := compText_len2 c hcwf
    omega
  have hnot0 : ¬ (durText (c :: cs') = ['0']) := by
    intro heq
    have := congrArg List.length heq
    simp only [List.length_cons, List.length_nil] at this
    omega
  have hempF : (durText (c :: cs')).isEmpty = false := by
    rw [hshape]
    rfl
  have hloop : durLoop ((durText (c :: cs')).length + 1) (durText (c :: cs')) 0 =
      some (0 + specDurNs (c :: cs')) := by
    apply durLoop_durText (c :: cs') hall 0
    · have h1 := durText_len hall
      omega
    · omega
  simp only [goParseDuration, hss, if_neg hnot0, hempF, Bool.false_eq_true, if_false, hloop,
    Nat.zero_add]
  rw [if_neg (show ¬ (specDurNs (c :: cs') > 9223372036854775807) from by omega)]

theorem all_nonspace_of_isDig {l : List Char} (h : l.all isDig = true) :
    l.all (fun c => !goIsSpace c) = true := by
  induction l with
  | nil => rfl
  | cons c t ih =>
    simp only [List.all_cons, Bool.and_eq_true] at h ⊢
    refine ⟨?_, ih h.2⟩
    rw [notspace_of_isDig h.1]
    rfl

theorem uText_nonspace (i : Fin 4) :
    (uText i).all (fun c => !goIsSpace c) = true := by fin_cases i <;> decide

theorem compText_nonspace (c : DurComp) (h : compWf c = true) :
    (compText c).all (fun c => !goIsSpace c) = true := by
  have hipd : c.ipart.all isDig = true := by
    simp only [compWf, Bool.and_eq_true] at h
    exact h.1.2
  simp only [compText, List.all_append, Bool.and_eq_true]
  refine ⟨⟨all_nonspace_of_isDig hipd, ?_⟩, uText_nonspace c.uidx⟩
  cases hfp : c.fpart with
  | none => rfl
  | some f =>
    have hfd : f.all isDig = true := by
      simp only [compWf, hfp, Bool.and_eq_true] at h
      exact h.2.2
    simp only [List.all_cons, Bool.and_eq_true]
    exact ⟨by decide, all_nonspace_of_isDig hfd⟩

theorem durText_nonspace {cs : List DurComp} (h : cs.all compWf = true) :
    (durText cs).all (fun c => !goIsSpace c) = true := by
  induction cs with
  | nil => rfl
  | cons c cs' ih =>
    have hcwf : compWf c = true := by
      simp only [List.all_cons, Bool.and_eq_true] at h
      exact h.1
    have hall' : cs'.all compWf = true := by
      simp only [List.all_cons, Bool.and_eq_true] at h
      exact h.2
    rw [durText_cons]
    simp only [List.all_append, Bool.and_eq_true]
    exact ⟨compText_nonspace c hcwf, ih hall'⟩

theorem durText_ne {cs : List DurComp} (hne : cs ≠ []) (h : cs.all compWf = true) :
    durText cs ≠ [] := by
  obtain ⟨c, cs', rfl⟩ := List.exists_cons_of_ne_nil hne
  have hcwf : compWf c = true := by
    simp only [List.all_cons, Bool.and_eq_true] at h
    exact h.1
  rw [durText_cons]
  intro heq
  exact compText_ne c hcwf (List.append_eq_nil.mp heq).1

/-- C1 (amended): a message built from the section 4.2 grammar parses
to exactly the literal field values, provided the image reference holds
no quote, backslash or newline (a backslash starts a quoted-string
escape and a newline stops the scan), each duration token value fits in
the signed 64-bit nanosecond range, and the integer token fits in the
signed 64-bit range; the parsed record carries the reference verbatim,
the two duration values in nanoseconds — each component the integer
part scaled by its unit plus the fractional contribution computed
through `float64` rounding exactly as the code computes it — and the
integer value. -/
theorem grammar_parse_values (ref : List Char) (cs1 cs2 : List DurComp) (n : List Char)
    (hq : '"' ∉ ref) (hb : '\\' ∉ ref) (hnl : '\n' ∉ ref)
    (hw1 : durWf cs1 = true) (hw2 : durWf cs2 = true)
    (hv1 : specDurNs cs1 ≤ 9223372036854775807) (hv2 : specDurNs cs2 ≤ 9223372036854775807)
    (hnne : n ≠ []) (hnd : n.all isDig = true) (hnv : digitsVal n < 9223372036854775808) :
    parseMessage (String.mk (msgParts ref (durText cs1) (durText cs2) n [])) =
      some ⟨String.mk ref, (specDurNs cs1 : Int), (specDurNs cs2 : Int), (digitsVal n : Int)⟩ := by
  have hne1 : cs1 ≠ [] := by
    simp only [durWf, Bool.and_eq_true] at hw1
    simpa using hw1.1.1
  have hall1 : cs1.all compWf = true := by
    simp only [durWf, Bool.and_eq_true] at hw1
    exact hw1.1.2
  have hne2 : cs2 ≠ [] := by
    simp only [durWf, Bool.and_eq_true] at hw2
    simpa using hw2.1.1
  have hall2 : cs2.all compWf = true := by
    simp only [durWf, Bool.and_eq_true] at hw2
    exact hw2.1.2
  have hs : scanMessage (String.mk (msgParts ref (durText cs1) (durText cs2) n [])).data =
      some (ref, durText cs1, durText cs2, n) :=
    scanMessage_msgParts [] hq hb hnl (durText_ne hne1 hall1) (durText_nonspace hall1)
      (durText_ne hne2 hall2) (durText_nonspace hall2) hnne (all_nonspace_of_isDig hnd)
  simp only [parseMessage, hs, goParseDuration_durText hw1 hv1, goParseDuration_durText hw2 hv2,
    goParseInt64_digits hnne hnd, if_pos hnv]

/-- The components of the duration token `1m44.643s` of the section 8
scenario. -/
def cs1443 : List DurComp := [⟨['1'], none, 1⟩, ⟨['4', '4'], some ['6', '4', '3'], 2⟩]

/-- The integer token of the section 8 scenario. -/
def n1169 : List Char := "1169083618".data

theorem grammar_parse_values_w :
    parseMessage (String.mk (msgParts refEx (durText cs1443) (durText cs1443) n1169 [])) =
      some ⟨"repo/example:99cd3b4", 104643000000, 104643000000, 1169083618⟩
    ∧ String.mk (msgParts refEx (durText cs1443) (durText cs1443) n1169 []) =
      "Successfully pulled image \"repo/example:99cd3b4\" in 1m44.643s (1m44.643s including waiting). Image size: 1169083618 bytes."
    ∧ msOf 104643000000 = 104643
    ∧ msOf (wrap64 (104643000000 - 104643000000)) = 0 := by
  refine ⟨?_, by decide, by decide, by decide⟩
  rw [grammar_parse_values refEx cs1443 cs1443 n1169 (by decide) (by decide) (by decide)
    (by decide) (by decide) (by decide) (by decide) (by decide) (by decide) (by decide)]
  decide

/-- The single overflowing component `9999999h`, well formed for the
grammar but beyond the signed 64-bit nanosecond range. -/
def csBig : List DurComp := [⟨"9999999".data, none, 0⟩]

/-- The single component `0.9002999999999999999ms`, well formed for the
grammar; its exact decimal value is `900299.99…` nanoseconds, yet the
`float64` fraction computation rounds it up to `900300`. -/
def csTiny : List DurComp := [⟨['0'], some "9002999999999999999".data, 3⟩]

/-- Counterexample to C1 as stated: four messages built from the
section 4.2 grammar that the code refuses to parse — an image reference
holding a backslash, an image reference holding a newline, a duration
token whose value overflows `int64` nanoseconds, an integer token of
value `2 ^ 63` — and a well-formed duration token whose parsed value is
not the truncation of its exact decimal value: `float64` rounding
yields `900300` nanoseconds where the exact quotient gives `900299`. -/
theorem grammar_parse_values_cex :
    ('"' ∉ ['a', '\\', 'z']
      ∧ parseMessage (String.mk (msgParts ['a', '\\', 'z'] (durText cs1443) (durText cs1443) ['5'] [])) = none)
    ∧ ('"' ∉ ['a', '\n']
      ∧ parseMessage (String.mk (msgParts ['a', '\n'] (durText cs1443) (durText cs1443) ['5'] [])) = none)
    ∧ (durWf csBig = true
      ∧ parseMessage (String.mk (msgParts ['r'] (durText csBig) (durText cs1443) ['5'] [])) = none)
    ∧ ("9223372036854775808".data.all isDig = true
      ∧ parseMessage (String.mk (msgParts ['r'] (durText cs1443) (durText cs1443) "9223372036854775808".data [])) = none)
    ∧ (durWf csTiny = true
      ∧ goParseDuration (durText csTiny) = some 900300
      ∧ 9002999999999999999 * 1000000 / 10 ^ 19 = 900299) := by
  decide
